import Mathlib

/-!
# Verification of the pg_search block-storage layer

A shallow embedding of the directory/storage adaptation layer of the
`pg_search` Postgres extension: the atomic slot store
(`src/index/directory/atomic.rs`), the segment-handle catalog
(`src/index/segment_handle.rs`), the segment block I/O
(`src/index/writer/io.rs`, `src/index/reader/file_handle.rs`,
`src/index/reader/segment_handle.rs`), the blocking directory
(`src/index/directory/blocking.rs`) and the channel bridge
(`src/index/directory/channel.rs`, `src/index/reader/channel.rs`,
`src/index/writer/channel.rs`).

Modelling conventions:
* A Postgres page is modelled as its sequence of stored items plus its
  special area: `special = some n` for a page built with room for a
  `LinkedBlockSpecialData` trailer whose `next_blockno` field holds `n`,
  and `special = none` for a page built with `new_buffer(0)`, which has
  no special area at all. `PageInit` zeroes the whole page, so a freshly
  initialized trailer reads `some 0` — block 0, a valid block — never
  the `InvalidBlockNumber` end-of-chain sentinel.
* Reading the trailer of a page whose `special` is `none` dereferences
  `PageGetSpecialPointer` past the end of the page: the value is not
  defined by the program. Every walk that performs such a read returns an
  explicit undefined marker (`Option.none`, or a `false` terminated-flag),
  and theorems state the program's behaviour only up to that point.
* The metadata page (block 0) stores `MetaPageData` in its content area
  without a line pointer; its `segment_handle_insert_blockno` field is the
  `insertBlockno` field of the storage. Its item list is empty (the zeroed
  line-pointer slot reads `lp_len = 0`) and it has no special area.
* Serialization of a `SegmentHandle` with `serde_json` is abstracted by a
  dedicated item constructor (`Item.seg`); deserializing a raw byte item
  as a `SegmentHandle` fails, matching `serde_json::from_slice` errors.
* `pg_sys::PageAddItemExtended` failing for lack of free space on a page
  is a property of the external page format; where the crate branches on
  that outcome (`SegmentHandle::create`) the success test is a parameter
  `fits`, so theorems hold for every possible capacity behaviour.
* The model is single-backend: buffer locks always succeed and are not
  represented.
-/

deriving instance DecidableEq for Except

namespace PgSearch

/-- A byte, kept abstract as a natural number. -/
abbrev Byte := Nat

/-- `pg_sys::InvalidBlockNumber`: the "no page / end of chain" sentinel. -/
def InvalidBlockNumber : Nat := 4294967295

/-- `METADATA_BLOCKNO` from `postgres/buffer.rs`: block 0 stores index metadata. -/
def METADATA_BLOCKNO : Nat := 0

/-- `SEGMENT_HANDLE_BLOCKNO` from `postgres/buffer.rs`: head of the segment-handle catalog chain. -/
def SEGMENT_HANDLE_BLOCKNO : Nat := 1

/-- `INDEX_WRITER_LOCK_BLOCKNO` from `postgres/buffer.rs`. -/
def INDEX_WRITER_LOCK_BLOCKNO : Nat := 2

/-- `TANTIVY_META_BLOCKNO` from `postgres/buffer.rs`: atomic slot for `meta.json`. -/
def TANTIVY_META_BLOCKNO : Nat := 3

/-- `TANTIVY_MANAGED_BLOCKNO` from `postgres/buffer.rs`: atomic slot for `.managed.json`. -/
def TANTIVY_MANAGED_BLOCKNO : Nat := 4

/-- `max_heap_tuple_size()` = `BLCKSZ - MAXALIGN(size_of(PageHeaderData) + size_of(ItemIdData))`
    = `8192 - MAXALIGN(24 + 4)` = `8192 - 32`. -/
def MAX_HEAP_TUPLE_SIZE : Nat := 8160

/-- `SegmentHandle` (`src/index/segment_handle.rs`): maps a logical path to the
    ordered physical block list and the total byte length. Paths are modelled
    as strings (`PathBuf` equality is path-string equality). -/
structure SegmentHandle where
  path : String
  blocks : List Nat
  total_bytes : Nat
deriving DecidableEq, Repr

/-- An item stored on a page. `bytes` is a raw chunk of segment or slot data;
    `seg` is a `serde_json`-serialized `SegmentHandle` (serialization is
    abstracted by the constructor: `from_slice` recovers exactly the handle,
    and fails on a raw-bytes item). -/
inductive Item where
  | bytes (data : List Byte)
  | seg (h : SegmentHandle)
deriving DecidableEq, Repr

/-- The raw data of an item as seen by the byte-level readers. Readers only
    slice items that were written as raw chunks. -/
def Item.data : Item → List Byte
  | .bytes d => d
  | .seg _ => []

/-- A page: its stored items (offset number `i+1` holds `items[i]`) and its
    special area: `some n` when the page has a `LinkedBlockSpecialData`
    trailer whose `next_blockno` holds `n`, `none` when the page was built
    with no special area (reading its trailer is reading past the page). -/
structure Page where
  items : List Item
  special : Option Nat
deriving DecidableEq, Repr

/-- A page freshly initialized by `PageInit` with room for a
    `LinkedBlockSpecialData` trailer: no items, and the zeroed special area
    reads `next_blockno = 0` — not the end-of-chain sentinel. -/
def pageInitSpecial : Page := { items := [], special := some 0 }

/-- A page freshly initialized by `PageInit` with `special_size = 0`: no
    items and no special area. -/
def pageInitPlain : Page := { items := [], special := none }

/-- The relation's block storage: `pages[b]` is the page at block number `b`;
    `freeList` is the free-page list fed by `RecordFreeIndexPage` and drained
    by `GetFreeIndexPage`; `insertBlockno` is the `segment_handle_insert_blockno`
    field of the `MetaPageData` stored on block 0. -/
structure Storage where
  pages : List Page
  freeList : List Nat
  insertBlockno : Nat
deriving DecidableEq, Repr

/-- Read the page at a block number (`BufferCache::get_buffer` + `BufferGetPage`). -/
def Storage.getPage (s : Storage) (b : Nat) : Page :=
  s.pages.getD b pageInitPlain

/-- Replace the page at a block number. -/
def Storage.setPage (s : Storage) (b : Nat) (p : Page) : Storage :=
  { s with pages := s.pages.set b p }

/-- `BufferCache::new_buffer(special_size)`: probe the free-page list first; a
    reused free page keeps its contents (`PageIsNew` is false, so it is not
    `PageInit`-ed again); otherwise extend the relation with a `PageInit`-ed
    page — with a zeroed trailer when `special_size` was
    `size_of::<LinkedBlockSpecialData>()` (`withSpecial = true`), with no
    special area when it was 0. Returns the block number of the acquired
    page. -/
def Storage.newBuffer (s : Storage) (withSpecial : Bool) : Nat × Storage :=
  match s.freeList with
  | b :: rest => (b, { s with freeList := rest })
  | [] =>
    (s.pages.length,
     { s with pages := s.pages ++ [if withSpecial then pageInitSpecial else pageInitPlain] })

/-- `BufferCache::record_free_index_page`. -/
def Storage.recordFree (s : Storage) (b : Nat) : Storage :=
  { s with freeList := s.freeList ++ [b] }

/-- Store `n` into the `next_blockno` trailer field of a page. The source
    performs this store unconditionally through `PageGetSpecialPointer`; the
    code only ever does it on pages built with a special area, and every
    theorem using it keeps to such pages. -/
def Storage.setNext (s : Storage) (b : Nat) (n : Nat) : Storage :=
  s.setPage b { s.getPage b with special := some n }

/-- Append an item to a page (`PageAddItemExtended` with `InvalidOffsetNumber`:
    the item is placed after all existing items). -/
def Storage.addItem (s : Storage) (b : Nat) (it : Item) : Storage :=
  s.setPage b { s.getPage b with items := (s.getPage b).items ++ [it] }

/-- The raw data of the first item of the page at block `b` (what
    `PageGetItem(page, PageGetItemId(page, FirstOffsetNumber))` yields; a page
    without items yields the empty byte string, the zeroed line pointer's
    `lp_len` being 0). -/
def Storage.headItem (s : Storage) (b : Nat) : List Byte :=
  ((s.getPage b).items.headD (.bytes [])).data

/-- The chunk-splitting loop, structurally recursive on a fuel bound (so that
    it evaluates by kernel reduction); with fuel at least `l.length` the fuel
    never runs out. -/
def chunksOfFuel (k : Nat) : Nat → List Byte → List (List Byte)
  | 0, _ => []
  | fuel + 1, l =>
    if l = [] ∨ k = 0 then [] else l.take k :: chunksOfFuel k fuel (l.drop k)

/-- `data.chunks(k)`: split a byte list into consecutive chunks of at most `k`
    bytes; an empty list yields no chunks. -/
def chunksOf (k : Nat) (l : List Byte) : List (List Byte) :=
  chunksOfFuel k l.length l

/-! ## The atomic slot store (`src/index/directory/atomic.rs`) -/

/-- One chain step of `AtomicDirectory::read_bytes`: read the first item of
    the current page, then follow the `next_blockno` trailer field. The result
    is the bytes accumulated, paired with `true` when the loop terminated at
    the `InvalidBlockNumber` sentinel and `false` when it read the trailer of
    a page with no special area (a read past the page whose value the program
    does not define) or ran out of fuel (the Rust loop runs until the
    sentinel; every chain this development reasons about is acyclic and
    shorter than the fuel used). -/
def atomicReadLoop (s : Storage) : Nat → Nat → List Byte × Bool
  | 0, _ => ([], false)
  | fuel + 1, b =>
    if b = InvalidBlockNumber then ([], true)
    else
      match (s.getPage b).special with
      | none => (s.headItem b, false)
      | some nxt =>
        ((s.headItem b ++ (atomicReadLoop s fuel nxt).1), (atomicReadLoop s fuel nxt).2)

/-- `AtomicDirectory::read_bytes`: the bytes accumulated, and whether the walk
    terminated at the sentinel (rather than at an undefined trailer read). -/
def atomicReadBytes (s : Storage) (b : Nat) : List Byte × Bool :=
  atomicReadLoop s (s.pages.length + 1) b

/-- Store a chunk as the single slot item of a page: `PageAddItemExtended` at
    `FirstOffsetNumber` when the page has no items, `PageIndexTupleOverwrite`
    of the first item otherwise. -/
def writeChunkAt (s : Storage) (b : Nat) (c : List Byte) : Storage :=
  s.setPage b
    { s.getPage b with
      items :=
        match (s.getPage b).items with
        | [] => [.bytes c]
        | _ :: t => .bytes c :: t }

/-- The `i > 0` preamble of the `AtomicDirectory::write_bytes` loop: read the
    current page's trailer; if it is the sentinel, allocate a continuation
    page (`new_buffer` with `LinkedBlockSpecialData` room) and link it,
    otherwise move to whatever block the trailer holds. On a page with no
    special area the trailer read is past the page: undefined (`none`). -/
def atomicAdvance (s : Storage) (b : Nat) : Option (Storage × Nat) :=
  match (s.getPage b).special with
  | none => none
  | some nxt =>
    if nxt = InvalidBlockNumber then
      some (((s.newBuffer true).2).setNext b (s.newBuffer true).1, (s.newBuffer true).1)
    else
      some (s, nxt)

/-- The remaining iterations of the `AtomicDirectory::write_bytes` loop after
    the first chunk has been written at the slot's head block; `none` once an
    iteration reads the trailer of a page with no special area. -/
def atomicWriteRest (s : Storage) (b : Nat) : List (List Byte) → Option Storage
  | [] => some s
  | c :: cs =>
    match atomicAdvance s b with
    | none => none
    | some (s1, b1) => atomicWriteRest (writeChunkAt s1 b1 c) b1 cs

/-- `AtomicDirectory::write_bytes`: chunk the value, write the first chunk on
    the slot's head block, then write each further chunk on the block the
    current trailer designates (or on a newly linked page when the trailer
    holds the sentinel). Writing an empty value performs no page mutation
    (`data.chunks` yields no chunks). -/
def atomicWriteBytes (s : Storage) (data : List Byte) (b : Nat) : Option Storage :=
  match chunksOf MAX_HEAP_TUPLE_SIZE data with
  | [] => some s
  | c :: cs => atomicWriteRest (writeChunkAt s b c) b cs

/-! ## The segment-handle catalog (`src/index/segment_handle.rs`) -/

/-- Scan the items of one catalog page in offset order (`SegmentHandle::open`'s
    inner loop): deserialize each item — a raw-bytes item fails deserialization
    and propagates an error — and stop at the first entry whose path matches. -/
def scanItems (path : String) : List Item → Except Unit (Option SegmentHandle)
  | [] => .ok none
  | .bytes _ :: _ => .error ()
  | .seg h :: rest =>
    if h.path = path then .ok (some h) else scanItems path rest

/-- The chain walk of `SegmentHandle::open`: scan the current page, then
    follow the `next_blockno` trailer field; `Ok(None)` only once the
    sentinel is reached. The outer `Option` is the undefined marker: `none`
    when the walk reads the trailer of a page with no special area (or runs
    out of fuel; every chain reasoned about is shorter than the fuel used). -/
def segmentHandleOpenLoop (s : Storage) (path : String) :
    Nat → Nat → Option (Except Unit (Option SegmentHandle))
  | 0, _ => none
  | fuel + 1, b =>
    if b = InvalidBlockNumber then some (.ok none)
    else
      match scanItems path (s.getPage b).items with
      | .error e => some (.error e)
      | .ok (some h) => some (.ok (some h))
      | .ok none =>
        match (s.getPage b).special with
        | none => none
        | some nxt => segmentHandleOpenLoop s path fuel nxt

/-- `SegmentHandle::open`: walk the catalog chain from `SEGMENT_HANDLE_BLOCKNO`. -/
def segmentHandleOpen (s : Storage) (path : String) :
    Option (Except Unit (Option SegmentHandle)) :=
  segmentHandleOpenLoop s path (s.pages.length + 1) SEGMENT_HANDLE_BLOCKNO

/-- `SegmentHandle::create`, parameterized by the external page-capacity test
    `fits` deciding whether `PageAddItemExtended` succeeds on a page: append
    the serialized handle to the current insert page; if that page is full,
    allocate a new tail, point the old tail's trailer and the metadata page's
    insert pointer at it, and append there. The new tail's own trailer is
    never written: it keeps its `PageInit`-zeroed value, block 0. The
    returned flag is `false` exactly when the second append also fails
    (`bail!`); the page mutations made before the bail persist. -/
def segmentHandleCreate (fits : Page → SegmentHandle → Bool) (s : Storage)
    (h : SegmentHandle) : Storage × Bool :=
  let ib := s.insertBlockno
  if fits (s.getPage ib) h then
    (s.addItem ib (.seg h), true)
  else
    let nb := (s.newBuffer true).1
    let s1 := (s.newBuffer true).2
    let s2 := { s1.setNext ib nb with insertBlockno := nb }
    if fits (s2.getPage nb) h then
      (s2.addItem nb (.seg h), true)
    else
      (s2, false)

/-! ## The segment writer (`src/index/writer/io.rs`) -/

/-- `IoWriter`: the buffered writer state. `Write::write` only appends to the
    in-memory cursor; no storage operation happens before termination. -/
structure IoWriter where
  path : String
  data : List Byte
deriving DecidableEq, Repr

/-- `IoWriter::new` (the `.lock`-rejection assertion is a caller contract). -/
def IoWriter.new (path : String) : IoWriter := { path := path, data := [] }

/-- `IoWriter`'s `Write::write`: buffer the bytes. -/
def IoWriter.write (w : IoWriter) (buf : List Byte) : IoWriter :=
  { w with data := w.data ++ buf }

/-- The page-allocation loop of `IoWriter::terminate_ref`: for each
    `MAX_HEAP_TUPLE_SIZE`-sized chunk read back from the cursor, allocate a
    fresh page (`new_buffer(0)`: no special area), add the chunk as its
    single item, and record the block number. -/
def ioWriterAllocChunks (s : Storage) : List (List Byte) → Storage × List Nat
  | [] => (s, [])
  | c :: cs =>
    let b := (s.newBuffer false).1
    let s2 := ((s.newBuffer false).2).addItem b (.bytes c)
    ((ioWriterAllocChunks s2 cs).1, b :: (ioWriterAllocChunks s2 cs).2)

/-- `IoWriter::terminate_ref`: write the buffered payload chunk-per-page, then
    register a `SegmentHandle` with the allocated block list and the total
    buffered length. The `Result` of `SegmentHandle::create` is discarded by
    the source, so the flag records whether the catalog append succeeded. -/
def ioWriterTerminate (fits : Page → SegmentHandle → Bool) (s : Storage)
    (w : IoWriter) : Storage × Bool :=
  segmentHandleCreate fits
    (ioWriterAllocChunks s (chunksOf MAX_HEAP_TUPLE_SIZE w.data)).1
    { path := w.path
      blocks := (ioWriterAllocChunks s (chunksOf MAX_HEAP_TUPLE_SIZE w.data)).2
      total_bytes := w.data.length }

/-! ## The segment readers (`src/index/reader/segment_handle.rs`,
      `src/index/reader/file_handle.rs`) -/

/-- The per-block slice both readers extract: the intersecting sub-range of the
    item stored on the `i`-th listed block, where `sB`/`eB` are the block
    indices of the (clamped) range endpoints. -/
def sliceFor (sB eB start e : Nat) (i : Nat) (item : List Byte) : List Byte :=
  (item.drop (if i = sB then start % MAX_HEAP_TUPLE_SIZE else 0)).take
    ((if i = eB then e % MAX_HEAP_TUPLE_SIZE else MAX_HEAP_TUPLE_SIZE)
      - (if i = sB then start % MAX_HEAP_TUPLE_SIZE else 0))

/-- `SegmentHandleReader::read_bytes`: clamp the end to the recorded total
    length, reject a degenerate range, then concatenate the per-block slices
    over `blocks.iter().enumerate().take(end_block + 1).skip(start_block)`. -/
def segmentHandleReadBytes (s : Storage) (h : SegmentHandle) (start e0 : Nat) :
    Except String (List Byte) :=
  if start ≥ min e0 h.total_bytes then .error "Invalid range"
  else
    .ok (((h.blocks.enum.take (min e0 h.total_bytes / MAX_HEAP_TUPLE_SIZE + 1)).drop
        (start / MAX_HEAP_TUPLE_SIZE)).map
      (fun p => sliceFor (start / MAX_HEAP_TUPLE_SIZE)
        (min e0 h.total_bytes / MAX_HEAP_TUPLE_SIZE) start (min e0 h.total_bytes)
        p.1 (s.headItem p.2))).flatten

/-- `HasLen::len` for `SegmentHandleReader` (and `FileHandleReader`). -/
def segmentReaderLen (h : SegmentHandle) : Nat := h.total_bytes

/-- One iteration of the `FileHandleReader::read_bytes` loop: index the block
    list (`blocks[i]` — out of bounds panics, modelled as `none`), fetch the
    page, and append the intersecting slice of its item. -/
def fileReadStep (s : Storage) (h : SegmentHandle) (sB eB start e : Nat)
    (acc : Option (List Byte)) (i : Nat) : Option (List Byte) :=
  match acc with
  | none => none
  | some d =>
    match h.blocks[i]? with
    | none => none
    | some b => some (d ++ sliceFor sB eB start e i (s.headItem b))

/-- `FileHandleReader::read_bytes`: no clamping and no degenerate-range check;
    iterates `start_block..=end_block` indexing `blocks[i]` directly, so an
    index beyond the block list panics (`none`). -/
def fileHandleReadBytes (s : Storage) (h : SegmentHandle) (start e : Nat) :
    Option (List Byte) :=
  (List.range' (start / MAX_HEAP_TUPLE_SIZE)
      (e / MAX_HEAP_TUPLE_SIZE + 1 - start / MAX_HEAP_TUPLE_SIZE)).foldl
    (fileReadStep s h (start / MAX_HEAP_TUPLE_SIZE) (e / MAX_HEAP_TUPLE_SIZE) start e)
    (some [])

/-! ## The blocking directory (`src/index/directory/blocking.rs`) -/

/-- `META_FILEPATH`: tantivy's well-known meta file name. -/
def META_FILEPATH : String := "meta.json"

/-- `MANAGED_FILEPATH`: tantivy's well-known managed-file-list name. -/
def MANAGED_FILEPATH : String := ".managed.json"

/-- `tantivy::directory::error::OpenReadError`, restricted to the variants the
    blocking directory produces. -/
inductive OpenReadError where
  | FileDoesNotExist (path : String)
  | IoError (msg : String) (path : String)
deriving DecidableEq, Repr

/-- `BlockingDirectory::atomic_read`: dispatch on the two well-known paths,
    any other path is `FileDoesNotExist`; an empty read result is also
    surfaced as `FileDoesNotExist`, never as empty-bytes success. The outer
    `Option` propagates the slot walk's undefined marker. -/
def blockingAtomicRead (s : Storage) (path : String) :
    Option (Except OpenReadError (List Byte)) :=
  if path = META_FILEPATH then
    if (atomicReadBytes s TANTIVY_META_BLOCKNO).2 then
      some (if (atomicReadBytes s TANTIVY_META_BLOCKNO).1 = [] then
          .error (.FileDoesNotExist path)
        else .ok (atomicReadBytes s TANTIVY_META_BLOCKNO).1)
    else none
  else if path = MANAGED_FILEPATH then
    if (atomicReadBytes s TANTIVY_MANAGED_BLOCKNO).2 then
      some (if (atomicReadBytes s TANTIVY_MANAGED_BLOCKNO).1 = [] then
          .error (.FileDoesNotExist path)
        else .ok (atomicReadBytes s TANTIVY_MANAGED_BLOCKNO).1)
    else none
  else some (.error (.FileDoesNotExist path))

/-- `BlockingDirectory::atomic_write`: dispatch on the two well-known paths,
    any other path is an I/O error. The outer `Option` propagates the slot
    write's undefined marker. -/
def blockingAtomicWrite (s : Storage) (path : String) (data : List Byte) :
    Option (Except String Storage) :=
  if path = META_FILEPATH then
    (atomicWriteBytes s data TANTIVY_META_BLOCKNO).map .ok
  else if path = MANAGED_FILEPATH then
    (atomicWriteBytes s data TANTIVY_MANAGED_BLOCKNO).map .ok
  else some (.error ("atomic_write unexpected path: " ++ path))

/-- `PageIndexTupleDelete(page, offsetno)`: remove the item at the given offset
    number, shifting the following items down; an out-of-range offset raises a
    Postgres error (`none`). -/
def pageIndexTupleDelete (p : Page) (offsetno : Nat) : Option Page :=
  if 1 ≤ offsetno ∧ offsetno ≤ p.items.length then
    some { p with items := p.items.eraseIdx (offsetno - 1) }
  else none

/-- The per-block item-clearing loop of `delete_with_stats`: for
    `offsetno in FirstOffsetNumber..=max_offset` (with `max_offset` read once,
    before any deletion) delete the item at `offsetno`. -/
def clearItemsLoop (p : Page) : List Nat → Option Page
  | [] => some p
  | o :: os =>
    match pageIndexTupleDelete p o with
    | none => none
    | some p' => clearItemsLoop p' os

/-- One iteration of the block loop of `BlockingDirectory::delete_with_stats`:
    clear the page's items (skipped when the page has none), record the page
    free, and count it. -/
def deleteOneBlock (s : Storage) (b : Nat) : Option Storage :=
  let p := s.getPage b
  let maxOffset := p.items.length
  if maxOffset > 0 then
    match clearItemsLoop p (List.range' 1 maxOffset) with
    | none => none
    | some p' => some ((s.setPage b p').recordFree b)
  else
    some (s.recordFree b)

/-- The fold of `deleteOneBlock` over a handle's block list. -/
def deleteBlocks (s : Storage) : List Nat → Option Storage
  | [] => some s
  | b :: bs =>
    match deleteOneBlock s b with
    | none => none
    | some s' => deleteBlocks s' bs

/-- `BlockingDirectory::delete_with_stats`: look up the catalog entry (a lookup
    error is `unwrap`-ed, i.e. fatal); with no entry, succeed with 0 pages
    reclaimed; otherwise clear and free every listed block and return their
    count. The catalog entry itself is not touched. -/
def deleteWithStats (s : Storage) (path : String) :
    Option (Except Unit (Nat × Storage)) :=
  match segmentHandleOpen s path with
  | none => none
  | some (.error _) => some (.error ())
  | some (.ok none) => some (.ok (0, s))
  | some (.ok (some h)) =>
    match deleteBlocks s h.blocks with
    | none => some (.error ())
    | some s' => some (.ok (h.blocks.length, s'))

/-- The storage laid out by `create_metadata` (`postgres/build.rs`): blocks
    0–4 allocated in order. The metadata page (block 0) and the writer-lock
    page (block 2) are built with no special area; only the catalog head's
    trailer (block 1) is set to the sentinel; the meta/managed slot pages
    (blocks 3/4) keep their `PageInit`-zeroed trailers, which read block 0.
    The metadata page's insert pointer starts at the catalog head. -/
def initialStorage : Storage :=
  { pages := [pageInitPlain, { items := [], special := some InvalidBlockNumber },
      pageInitPlain, pageInitSpecial, pageInitSpecial]
    freeList := []
    insertBlockno := SEGMENT_HANDLE_BLOCKNO }

/-! ## The channel bridge (`src/index/directory/channel.rs`,
      `src/index/reader/channel.rs`, `src/index/writer/channel.rs`) -/

/-- `ChannelRequest`. Locks are identified by their file path; a
    `BlockingLock` is represented by the block number it pins. -/
inductive ChannelRequest where
  | AcquireLock (filepath : String)
  | AtomicRead (path : String)
  | AtomicWrite (path : String) (data : List Byte)
  | ReleaseBlockingLock (blockno : Nat)
  | SegmentRead (path : String) (start e : Nat) (handle : SegmentHandle)
  | SegmentWrite (path : String) (data : List Byte)
  | SegmentDelete (path : String)
  | GetSegmentHandle (path : String)
  | ShouldDeleteCtids (ctids : List Nat)
  | Terminate
deriving DecidableEq, Repr

/-- `ChannelResponse`. -/
inductive ChannelResponse where
  | AtomicWriteAck
  | SegmentWriteAck
  | SegmentDeleteAck
  | AcquiredLock (blockno : Nat)
  | Bytes (data : List Byte)
  | SegmentHandleResp (h : Option SegmentHandle)
  | ShouldDeleteCtids (ctids : List Nat)
deriving DecidableEq, Repr

/-- How a bridge operation ends after receiving a response: a normal value, an
    error returned to the caller, or a panic. -/
inductive BridgeOutcome (α : Type) where
  | ok (a : α)
  | errReturn (msg : String)
  | panicked (msg : String)
deriving DecidableEq, Repr

/-- Whether an outcome is a panic. -/
def BridgeOutcome.isPanic : BridgeOutcome α → Bool
  | .panicked _ => true
  | _ => false

/-- Whether an outcome is an error return. -/
def BridgeOutcome.isErrReturn : BridgeOutcome α → Bool
  | .errReturn _ => true
  | _ => false

/-- `ChannelDirectory::atomic_read`'s handling of the received response: a
    variant other than `Bytes` is wrapped into an `OpenReadError` and returned. -/
def channelAtomicReadOutcome : ChannelResponse → BridgeOutcome (List Byte)
  | .Bytes data => .ok data
  | _ => .errReturn "atomic_read unexpected response"

/-- `ChannelDirectory::atomic_write`'s handling of the received response. -/
def channelAtomicWriteOutcome : ChannelResponse → BridgeOutcome Unit
  | .AtomicWriteAck => .ok ()
  | _ => .errReturn "atomic_write unexpected response"

/-- `ChannelDirectory::delete`'s handling of the received response. -/
def channelDeleteOutcome : ChannelResponse → BridgeOutcome Unit
  | .SegmentDeleteAck => .ok ()
  | _ => .errReturn "delete unexpected response"

/-- `ChannelDirectory::acquire_lock`'s handling of the received response. -/
def channelAcquireLockOutcome : ChannelResponse → BridgeOutcome Nat
  | .AcquiredLock b => .ok b
  | _ => .errReturn "acquire_lock unexpected response"

/-- `ChannelReader::new`'s handling of the received response: a missing handle
    fails the `expect`, and any variant other than `SegmentHandle` panics. -/
def channelReaderNewOutcome : ChannelResponse → BridgeOutcome SegmentHandle
  | .SegmentHandleResp (some h) => .ok h
  | .SegmentHandleResp none => .panicked "SegmentHandle should exist"
  | _ => .panicked "SegmentHandle expected"

/-- `ChannelReader::read_bytes`'s handling of the received response: any
    variant other than `Bytes` panics. -/
def channelReaderReadOutcome : ChannelResponse → BridgeOutcome (List Byte)
  | .Bytes data => .ok data
  | _ => .panicked "Bytes expected"

/-- `ChannelWriter::terminate_ref`'s handling of the received response: any
    variant other than `SegmentWriteAck` panics. -/
def channelWriterTerminateOutcome : ChannelResponse → BridgeOutcome Unit
  | .SegmentWriteAck => .ok ()
  | _ => .panicked "SegmentWrite expected"

/-- Whether a response is the variant `ChannelDirectory::atomic_read` expects. -/
def isBytesResp : ChannelResponse → Bool
  | .Bytes _ => true
  | _ => false

/-- Whether a response is the variant `ChannelReader::new` expects. -/
def isSegmentHandleResp : ChannelResponse → Bool
  | .SegmentHandleResp _ => true
  | _ => false

/-- `tantivy::directory::META_LOCK.filepath` (external library constant). -/
def META_LOCK_FILEPATH : String := "meta.lock"

/-- `tantivy::directory::MANAGED_LOCK.filepath` (external library constant). -/
def MANAGED_LOCK_FILEPATH : String := ".managed.lock"

/-- `tantivy::directory::INDEX_WRITER_LOCK.filepath` (external library constant). -/
def INDEX_WRITER_LOCK_FILEPATH : String := ".tantivy-writer.lock"

/-- Modelled from the spec: `META_LOCK_BLOCKNO` is imported by
    `src/index/directory/blocking.rs` from `postgres::buffer` but its
    definition is missing from `src/`; the spec maps each well-known lock name
    to a specific reserved block number, so a distinct reserved block is used. -/
def META_LOCK_BLOCKNO : Nat := 5

/-- Modelled from the spec: `MANAGED_LOCK_BLOCKNO`, like `META_LOCK_BLOCKNO`,
    is declared only at its import site; a distinct reserved block is used. -/
def MANAGED_LOCK_BLOCKNO : Nat := 6

/-- `BlockingDirectory::acquire_blocking_lock`: map the three well-known lock
    names to their reserved block numbers; any other name is an error
    (`bail!`). -/
def acquireBlockingLock (filepath : String) : Except Unit Nat :=
  if filepath = META_LOCK_FILEPATH then .ok META_LOCK_BLOCKNO
  else if filepath = MANAGED_LOCK_FILEPATH then .ok MANAGED_LOCK_BLOCKNO
  else if filepath = INDEX_WRITER_LOCK_FILEPATH then .ok INDEX_WRITER_LOCK_BLOCKNO
  else .error ()

/-- The accumulated state of one `ChannelRequestHandler::receive_blocking`
    run: the storage, the `pages_deleted` counter, and the responses sent so
    far (in send order). -/
structure HandlerState where
  storage : Storage
  pagesDeleted : Nat
  responses : List ChannelResponse
deriving DecidableEq, Repr

/-- One arm of the `receive_blocking` match: process a single request,
    yielding the updated handler state; an operation error (`?`) or fatal
    condition aborts the whole loop as `some (.error ())`, and an operation
    whose storage walk is undefined propagates the undefined marker (`none`).
    `Terminate` is handled by the loop itself, not here. -/
def handleOne (shouldDelete : Option (Nat → Bool)) (st : HandlerState) :
    ChannelRequest → Option (Except Unit HandlerState)
  | .AcquireLock filepath =>
    match acquireBlockingLock filepath with
    | .error e => some (.error e)
    | .ok b => some (.ok { st with responses := st.responses ++ [.AcquiredLock b] })
  | .AtomicRead path =>
    match blockingAtomicRead st.storage path with
    | none => none
    | some (.error _) => some (.error ())
    | some (.ok data) => some (.ok { st with responses := st.responses ++ [.Bytes data] })
  | .AtomicWrite path data =>
    match blockingAtomicWrite st.storage path data with
    | none => none
    | some (.error _) => some (.error ())
    | some (.ok s') =>
      some (.ok { st with storage := s', responses := st.responses ++ [.AtomicWriteAck] })
  | .ReleaseBlockingLock _ => some (.ok st)
  | .GetSegmentHandle path =>
    match segmentHandleOpen st.storage path with
    | none => none
    | some (.error e) => some (.error e)
    | some (.ok h) =>
      some (.ok { st with responses := st.responses ++ [.SegmentHandleResp h] })
  | .SegmentRead _ start e handle =>
    match fileHandleReadBytes st.storage handle start e with
    | none => some (.error ())
    | some data => some (.ok { st with responses := st.responses ++ [.Bytes data] })
  | .SegmentWrite _ _ =>
    -- an `IoWriter` is created and the payload buffered into it, but
    -- `terminate_ref` is never called, so storage is untouched
    some (.ok { st with responses := st.responses ++ [.SegmentWriteAck] })
  | .SegmentDelete path =>
    match deleteWithStats st.storage path with
    | none => none
    | some (.error e) => some (.error e)
    | some (.ok (n, s')) =>
      some (.ok { storage := s', pagesDeleted := st.pagesDeleted + n,
                  responses := st.responses ++ [.SegmentDeleteAck] })
  | .ShouldDeleteCtids ctids =>
    match shouldDelete with
    | some p =>
      some (.ok { st with responses := st.responses ++ [.ShouldDeleteCtids (ctids.filter p)] })
    | none => some (.ok { st with responses := st.responses ++ [.ShouldDeleteCtids []] })
  | .Terminate => some (.ok st)

/-- The receive loop of `ChannelRequestHandler::receive_blocking` over a
    request sequence: process each request in order, stopping at `Terminate`
    (or when the channel is exhausted). -/
def receiveBlocking (shouldDelete : Option (Nat → Bool)) (st : HandlerState) :
    List ChannelRequest → Option (Except Unit HandlerState)
  | [] => some (.ok st)
  | .Terminate :: _ => some (.ok st)
  | req :: reqs =>
    match handleOne shouldDelete st req with
    | none => none
    | some (.error e) => some (.error e)
    | some (.ok st') => receiveBlocking shouldDelete st' reqs

/-! ## Derived definitions: invariants and concrete instances -/

/-- The chain of continuation blocks hanging off a head block:
    `ChainFromEnd s b e ts` says the trailer of `b` reads the first element
    of `ts`, and so on, the last listed block's trailer reading `e`. Every
    trailer along the chain exists (`some`): these are pages built with a
    `LinkedBlockSpecialData` special area. On a reachable slot chain the end
    value `e` is 0 (the `PageInit`-zeroed trailer of the last allocated
    continuation page, or of the slot page itself); only the catalog head
    written by `create_metadata` ever reads the sentinel. -/
def ChainFromEnd (s : Storage) (b e : Nat) : List Nat → Prop
  | [] => (s.getPage b).special = some e
  | t :: ts => (s.getPage b).special = some t ∧ ChainFromEnd s t e ts

/-- The effect of the continuation-chunk loop `atomicWriteRest` when the
    chunks fit on the existing chain `ts` hanging off `b`: the listed blocks
    receive the chunks in order, every trailer in the storage is untouched,
    and nothing outside `b :: ts` changes. -/
structure WriteRestResult (s s' : Storage) (b : Nat) (ts : List Nat)
    (cs : List (List Byte)) : Prop where
  special_eq : ∀ x, (s'.getPage x).special = (s.getPage x).special
  len_eq : s'.pages.length = s.pages.length
  free_eq : s'.freeList = s.freeList
  insert_eq : s'.insertBlockno = s.insertBlockno
  head_b : s'.headItem b = s.headItem b
  heads : ts.map s'.headItem = cs ++ (ts.map s.headItem).drop cs.length
  frame : ∀ x, x ∉ b :: ts → s'.getPage x = s.getPage x

/-- The effect of `AtomicDirectory::write_bytes` of a non-empty value whose
    chunks fit on the slot's existing chain: the head and the first chunks'
    worth of continuation blocks receive the new value, the rest keep their
    stale items, and no trailer anywhere changes. -/
structure WriteBytesResult (s s' : Storage) (b : Nat) (ts : List Nat)
    (data : List Byte) : Prop where
  special_eq : ∀ x, (s'.getPage x).special = (s.getPage x).special
  len_eq : s'.pages.length = s.pages.length
  free_eq : s'.freeList = s.freeList
  insert_eq : s'.insertBlockno = s.insertBlockno
  heads : (b :: ts).map s'.headItem
    = chunksOf MAX_HEAP_TUPLE_SIZE data
      ++ ((b :: ts).map s.headItem).drop (chunksOf MAX_HEAP_TUPLE_SIZE data).length
  frame : ∀ x, x ∉ b :: ts → s'.getPage x = s.getPage x

/-- The layout of a stored segment: the catalog entry records the content's
    length and one block per chunk, and each listed block's first item is the
    corresponding chunk of the content. This is exactly the state the segment
    writer produces. -/
structure SegmentLayout (s : Storage) (h : SegmentHandle) (C : List Byte) : Prop where
  total : h.total_bytes = C.length
  blocks_len : h.blocks.length = (chunksOf MAX_HEAP_TUPLE_SIZE C).length
  layout : ∀ i, i < h.blocks.length →
    s.headItem (h.blocks.getD i 0) = (chunksOf MAX_HEAP_TUPLE_SIZE C).getD i []

/-- The `next_blockno` value closing the catalog chain: the sentinel written
    by `create_metadata` while the catalog is still its single head page, and
    the `PageInit`-zeroed trailer (block 0) of the newest tail page once any
    overflow has linked one (`SegmentHandle::create` never writes the new
    tail's own trailer). -/
def catalogEnd (ts : List Nat) : Nat :=
  if ts = [] then InvalidBlockNumber else 0

/-- The well-formedness of the segment-handle catalog as the code maintains
    it: a chain of distinct in-range pages starting at
    `SEGMENT_HANDLE_BLOCKNO` and closed by `catalogEnd` (the sentinel only
    while no overflow has happened), the metadata page's insert pointer at
    the chain's tail, every chain page holding exactly the serialized entries
    `pe` assigns to it, and the metadata page (block 0) with no items and no
    special area. -/
structure CatalogOK (s : Storage) (ts : List Nat) (pe : List (List SegmentHandle)) : Prop where
  chain : ChainFromEnd s SEGMENT_HANDLE_BLOCKNO (catalogEnd ts) ts
  nodup : (SEGMENT_HANDLE_BLOCKNO :: ts).Nodup
  bounded : ∀ x ∈ SEGMENT_HANDLE_BLOCKNO :: ts, x < s.pages.length
  pos : ∀ x ∈ SEGMENT_HANDLE_BLOCKNO :: ts, 0 < x
  insert_tail : s.insertBlockno = ts.getLastD SEGMENT_HANDLE_BLOCKNO
  len_eq : pe.length = ts.length + 1
  items : ∀ i, i < pe.length →
    (s.getPage ((SEGMENT_HANDLE_BLOCKNO :: ts).getD i 0)).items = (pe.getD i []).map Item.seg
  meta_items : (s.getPage METADATA_BLOCKNO).items = []
  meta_special : (s.getPage METADATA_BLOCKNO).special = none

/-- A driver folding `SegmentHandle::create` over a sequence of handles,
    stopping at the first failed append (`bail!`). -/
def createAll (fits : Page → SegmentHandle → Bool) (s : Storage) :
    List SegmentHandle → Option Storage
  | [] => some s
  | h :: hs =>
    if (segmentHandleCreate fits s h).2 then
      createAll fits (segmentHandleCreate fits s h).1 hs
    else none

/-- The handle `IoWriter::terminate_ref` registers from a state with `n` pages:
    consecutive fresh blocks, one per chunk, and the buffered length. -/
def terminateHandle (s : Storage) (w : IoWriter) : SegmentHandle :=
  { path := w.path
    blocks := List.range' s.pages.length (chunksOf MAX_HEAP_TUPLE_SIZE w.data).length
    total_bytes := w.data.length }

/-- The storage of C2's witness: the built blocks 0–4 plus one data page
    (`new_buffer(0)`: no special area) holding a five-byte segment. -/
def C2s : Storage :=
  { pages := [pageInitPlain, { items := [], special := some InvalidBlockNumber },
      pageInitPlain, pageInitSpecial, pageInitSpecial,
      { items := [Item.bytes [10, 20, 30, 40, 50]], special := none }]
    freeList := []
    insertBlockno := 1 }

/-- The handle of C2's witness. -/
def C2h : SegmentHandle := { path := "seg2", blocks := [5], total_bytes := 5 }

/-- The capacity behaviour of C3's witness (and counterexample): a catalog
    page fits a new entry only while empty, so the second create overflows
    onto a new tail page. -/
def C3fits : Page → SegmentHandle → Bool := fun p _ => p.items.length == 0

/-- The handles of C3's witness (and counterexample). -/
def C3hs : List SegmentHandle := [⟨"alpha", [9], 1⟩, ⟨"beta", [10], 2⟩]

/-- The post-overflow storage C3's witness (and counterexample) end in. -/
def C3res : Storage := (createAll C3fits initialStorage C3hs).getD initialStorage

/-- The storage of C9's witness (and counterexample): the meta slot's chain
    spans blocks 3 and 6 (a previous two-chunk value), holding stale head
    items `[1, 2]` and `[3]`; block 6's trailer keeps its `PageInit`-zeroed
    value, block 0, exactly as `write_bytes` leaves a freshly linked
    continuation page. -/
def C9s : Storage :=
  { pages := [pageInitPlain, { items := [], special := some InvalidBlockNumber },
      pageInitPlain, { items := [Item.bytes [1, 2]], special := some 6 },
      pageInitSpecial, pageInitPlain,
      { items := [Item.bytes [3]], special := some 0 }]
    freeList := []
    insertBlockno := 1 }

/-- The buffers of C4's witness. -/
def C4bufs : List (List Byte) := [[1, 2], [3]]

/-- The writer of C4's witness after both writes. -/
def C4w : IoWriter := { path := "w4", data := [1, 2, 3] }

theorem getPage_setPage_self (s : Storage) (b : Nat) (p : Page)
    (hb : b < s.pages.length) : (s.setPage b p).getPage b = p := by
  simp [Storage.setPage, Storage.getPage, List.getD, List.getElem?_set_self' , hb]

theorem getPage_setPage_ne (s : Storage) (b b' : Nat) (p : Page)
    (h : b' ≠ b) : (s.setPage b p).getPage b' = s.getPage b' := by
  simp [Storage.setPage, Storage.getPage, List.getD, List.getElem?_set_ne (Ne.symm h)]

theorem pages_length_setPage (s : Storage) (b : Nat) (p : Page) :
    (s.setPage b p).pages.length = s.pages.length := by
  simp [Storage.setPage]

theorem freeList_setPage (s : Storage) (b : Nat) (p : Page) :
    (s.setPage b p).freeList = s.freeList := rfl

theorem insertBlockno_setPage (s : Storage) (b : Nat) (p : Page) :
    (s.setPage b p).insertBlockno = s.insertBlockno := rfl

theorem getPage_out_of_range (s : Storage) (b : Nat)
    (hb : s.pages.length ≤ b) : s.getPage b = pageInitPlain := by
  simp [Storage.getPage, List.getD, List.getElem?_eq_none hb]

/-! ## Lemmas about `chunksOf` -/

theorem chunksOfFuel_nil (k fuel : Nat) : chunksOfFuel k fuel [] = [] := by
  cases fuel with
  | zero => rfl
  | succ f => simp [chunksOfFuel]

theorem chunksOfFuel_eq (k : Nat) :
    ∀ fuel1 (l : List Byte) (fuel2 : Nat), l.length ≤ fuel1 → l.length ≤ fuel2 →
      chunksOfFuel k fuel1 l = chunksOfFuel k fuel2 l := by
  intro fuel1
  induction fuel1 with
  | zero =>
    intro l fuel2 h1 _
    have hl : l = [] := List.eq_nil_of_length_eq_zero (by omega)
    subst hl
    rw [chunksOfFuel_nil, chunksOfFuel_nil]
  | succ f ih =>
    intro l fuel2 h1 h2
    by_cases hl : l = []
    · subst hl
      rw [chunksOfFuel_nil, chunksOfFuel_nil]
    · have hpos : 0 < l.length := List.length_pos.mpr hl
      cases fuel2 with
      | zero => omega
      | succ g =>
        by_cases hk : k = 0
        · simp [chunksOfFuel, hk]
        · simp only [chunksOfFuel]
          rw [if_neg (by simp [hl, hk]), if_neg (by simp [hl, hk])]
          congr 1
          have hklt : 1 ≤ k := by omega
          apply ih
          · simp only [List.length_drop]
            omega
          · simp only [List.length_drop]
            omega

theorem chunksOf_nil (k : Nat) : chunksOf k [] = [] := rfl

theorem chunksOf_ne_nil (k : Nat) (l : List Byte) (hl : l ≠ []) (hk : k ≠ 0) :
    chunksOf k l = l.take k :: chunksOf k (l.drop k) := by
  have hpos : 0 < l.length := List.length_pos.mpr hl
  obtain ⟨n, hlen⟩ : ∃ n, l.length = n + 1 := ⟨l.length - 1, by omega⟩
  unfold chunksOf
  rw [hlen]
  simp only [chunksOfFuel]
  rw [if_neg (by simp [hl, hk])]
  congr 1
  apply chunksOfFuel_eq
  · simp only [List.length_drop]
    omega
  · simp only [List.length_drop]
    omega

theorem flatten_chunksOf (k : Nat) (hk : 0 < k) (l : List Byte) :
    (chunksOf k l).flatten = l := by
  by_cases hl : l = []
  · simp [hl, chunksOf_nil]
  · rw [chunksOf_ne_nil k l hl hk.ne']
    have : (l.drop k).length < l.length := by
      have : 0 < l.length := List.length_pos.mpr hl
      simpa [List.length_drop] using Nat.sub_lt this hk
    rw [List.flatten_cons, flatten_chunksOf k hk (l.drop k), List.take_append_drop]
termination_by l.length

theorem chunksOf_length_le (k : Nat) (hk : 0 < k) (l : List Byte) :
    l.length ≤ k * (chunksOf k l).length := by
  by_cases hl : l = []
  · simp [hl, chunksOf_nil]
  · rw [chunksOf_ne_nil k l hl hk.ne']
    have hdec : (l.drop k).length < l.length := by
      have : 0 < l.length := List.length_pos.mpr hl
      simpa [List.length_drop] using Nat.sub_lt this hk
    have ih := chunksOf_length_le k hk (l.drop k)
    simp only [List.length_cons, Nat.mul_succ, List.length_drop] at ih ⊢
    omega
termination_by l.length

theorem chunksOf_getD (k : Nat) (hk : 0 < k) (l : List Byte) (i : Nat) :
    (chunksOf k l).getD i [] = (l.drop (k * i)).take k := by
  by_cases hl : l = []
  · simp [hl, chunksOf_nil]
  · rw [chunksOf_ne_nil k l hl hk.ne']
    cases i with
    | zero => simp
    | succ j =>
      have hdec : (l.drop k).length < l.length := by
        have : 0 < l.length := List.length_pos.mpr hl
        simpa [List.length_drop] using Nat.sub_lt this hk
      have ih := chunksOf_getD k hk (l.drop k) j
      simp only [List.getD_cons_succ, ih, List.drop_drop]
      ring_nf
termination_by l.length

theorem flatten_drop_chunksOf (k : Nat) (hk : 0 < k) (l : List Byte) (j : Nat) :
    ((chunksOf k l).drop j).flatten = l.drop (k * j) := by
  by_cases hl : l = []
  · simp [hl, chunksOf_nil]
  · rw [chunksOf_ne_nil k l hl hk.ne']
    cases j with
    | zero =>
      simp only [List.drop_zero, List.flatten_cons, Nat.mul_zero]
      rw [flatten_chunksOf k hk (l.drop k), List.take_append_drop]
    | succ j' =>
      have hdec : (l.drop k).length < l.length := by
        have : 0 < l.length := List.length_pos.mpr hl
        simpa [List.length_drop] using Nat.sub_lt this hk
      have ih := flatten_drop_chunksOf k hk (l.drop k) j'
      simp only [List.drop_succ_cons, ih, List.drop_drop]
      ring_nf
termination_by l.length

theorem chunksOf_length_lt (k : Nat) (hk : 0 < k) (l : List Byte) (i : Nat)
    (hi : i < l.length) : i / k < (chunksOf k l).length := by
  have h1 := chunksOf_length_le k hk l
  have : i < k * (chunksOf k l).length := Nat.lt_of_lt_of_le hi h1
  exact Nat.div_lt_of_lt_mul this

/-! ## Lemmas about chain writes (`AtomicDirectory`) -/

theorem getPage_writeChunkAt_ne (s : Storage) (x : Nat) (c : List Byte)
    (y : Nat) (h : y ≠ x) :
    (writeChunkAt s x c).getPage y = s.getPage y := by
  unfold writeChunkAt
  exact getPage_setPage_ne _ _ _ _ h

theorem special_writeChunkAt (s : Storage) (x : Nat) (c : List Byte)
    (y : Nat) :
    ((writeChunkAt s x c).getPage y).special = (s.getPage y).special := by
  by_cases hxy : y = x
  · subst hxy
    by_cases hx : y < s.pages.length
    · unfold writeChunkAt
      rw [getPage_setPage_self _ _ _ hx]
    · unfold writeChunkAt Storage.setPage
      rw [List.set_eq_of_length_le (Nat.le_of_not_lt hx)]
  · rw [getPage_writeChunkAt_ne _ _ _ _ hxy]

theorem headItem_writeChunkAt_self (s : Storage) (x : Nat) (c : List Byte)
    (hx : x < s.pages.length) : (writeChunkAt s x c).headItem x = c := by
  unfold Storage.headItem writeChunkAt
  rw [getPage_setPage_self _ _ _ hx]
  cases (s.getPage x).items <;> simp [Item.data]

theorem headItem_writeChunkAt_ne (s : Storage) (x : Nat) (c : List Byte)
    (y : Nat) (h : y ≠ x) :
    (writeChunkAt s x c).headItem y = s.headItem y := by
  unfold Storage.headItem
  rw [getPage_writeChunkAt_ne _ _ _ _ h]

theorem pages_length_writeChunkAt (s : Storage) (x : Nat) (c : List Byte) :
    (writeChunkAt s x c).pages.length = s.pages.length :=
  pages_length_setPage _ _ _

theorem freeList_writeChunkAt (s : Storage) (x : Nat) (c : List Byte) :
    (writeChunkAt s x c).freeList = s.freeList := rfl

theorem insertBlockno_writeChunkAt (s : Storage) (x : Nat) (c : List Byte) :
    (writeChunkAt s x c).insertBlockno = s.insertBlockno := rfl

theorem getPage_setNext_self (s : Storage) (b n : Nat)
    (hb : b < s.pages.length) :
    (s.setNext b n).getPage b = { s.getPage b with special := some n } := by
  unfold Storage.setNext
  exact getPage_setPage_self _ _ _ hb

theorem getPage_setNext_ne (s : Storage) (b n y : Nat) (h : y ≠ b) :
    (s.setNext b n).getPage y = s.getPage y :=
  getPage_setPage_ne _ _ _ _ h

theorem pages_length_setNext (s : Storage) (b n : Nat) :
    (s.setNext b n).pages.length = s.pages.length :=
  pages_length_setPage _ _ _

/-- Appending a page does not change existing pages. -/
theorem getPage_append_lt (s : Storage) (p : Page) (y : Nat)
    (hy : y < s.pages.length) :
    ({ s with pages := s.pages ++ [p] } : Storage).getPage y = s.getPage y := by
  unfold Storage.getPage
  simp [List.getD, List.getElem?_append_left hy]

theorem getPage_append_self (s : Storage) (p : Page) :
    ({ s with pages := s.pages ++ [p] } : Storage).getPage s.pages.length = p := by
  unfold Storage.getPage
  simp [List.getD]

theorem chainFromEnd_of_special_eq {s s' : Storage} {b e : Nat} {ts : List Nat}
    (hsp : ∀ y, (s'.getPage y).special = (s.getPage y).special)
    (h : ChainFromEnd s b e ts) : ChainFromEnd s' b e ts := by
  induction ts generalizing b with
  | nil => unfold ChainFromEnd at *; rw [hsp]; exact h
  | cons t ts ih =>
    obtain ⟨h1, h2⟩ := h
    exact ⟨(hsp b).trans h1, ih h2⟩

theorem atomicReadLoop_invalid (s : Storage) (fuel : Nat) :
    atomicReadLoop s (fuel + 1) InvalidBlockNumber = ([], true) := by
  simp [atomicReadLoop]

theorem atomicReadLoop_step_some (s : Storage) (fuel b nxt : Nat)
    (hb : b ≠ InvalidBlockNumber) (hsp : (s.getPage b).special = some nxt) :
    atomicReadLoop s (fuel + 1) b
      = (s.headItem b ++ (atomicReadLoop s fuel nxt).1,
         (atomicReadLoop s fuel nxt).2) := by
  rw [atomicReadLoop, if_neg hb, hsp]

theorem atomicReadLoop_step_none (s : Storage) (fuel b : Nat)
    (hb : b ≠ InvalidBlockNumber) (hsp : (s.getPage b).special = none) :
    atomicReadLoop s (fuel + 1) b = (s.headItem b, false) := by
  rw [atomicReadLoop, if_neg hb, hsp]

/-- Reading from the head of a chain concatenates the first items of its
    pages, in order, then continues from the chain's end value with the
    remaining fuel. -/
theorem atomicReadLoop_chain (s : Storage) (ts : List Nat) :
    ∀ (b e fuel : Nat),
    ChainFromEnd s b e ts →
    (∀ x ∈ b :: ts, x ≠ InvalidBlockNumber) →
    atomicReadLoop s (fuel + (ts.length + 1)) b
      = (((b :: ts).map s.headItem).flatten ++ (atomicReadLoop s fuel e).1,
         (atomicReadLoop s fuel e).2) := by
  induction ts with
  | nil =>
    intro b e fuel hchain hvalid
    have h1 : (s.getPage b).special = some e := hchain
    rw [show fuel + (List.length ([] : List Nat) + 1) = fuel + 1 by simp,
      atomicReadLoop_step_some s fuel b e (hvalid b (by simp)) h1]
    simp
  | cons t ts ih =>
    intro b e fuel hchain hvalid
    obtain ⟨h1, h2⟩ := hchain
    rw [show fuel + ((t :: ts).length + 1) = (fuel + (ts.length + 1)) + 1 by
        simp only [List.length_cons]
        omega,
      atomicReadLoop_step_some s _ b t (hvalid b (by simp)) h1,
      ih t e fuel h2 (fun x hx => hvalid x (by simp at hx ⊢; tauto))]
    simp

theorem newBuffer_of_nil_free (s : Storage) (w : Bool) (h : s.freeList = []) :
    s.newBuffer w = (s.pages.length,
      { s with pages := s.pages ++ [if w then pageInitSpecial else pageInitPlain] }) := by
  unfold Storage.newBuffer
  rw [h]

/-- `new_buffer` keeps every existing trailer value. -/
theorem special_newBuffer (s : Storage) (w : Bool) (x n : Nat)
    (hx : (s.getPage x).special = some n) :
    (((s.newBuffer w).2).getPage x).special = some n := by
  unfold Storage.newBuffer
  cases hfl : s.freeList with
  | cons f rest => exact hx
  | nil =>
    by_cases hlt : x < s.pages.length
    · show (({ s with pages := s.pages ++ [if w then pageInitSpecial else pageInitPlain] }
          : Storage).getPage x).special = some n
      rw [getPage_append_lt s _ x hlt]
      exact hx
    · rw [getPage_out_of_range s x (by omega)] at hx
      simp [pageInitPlain] at hx

/-- The effect of `atomicWriteRest` when the remaining chunks fit on the
    existing chain: each chunk lands on the next chain block, no allocation
    happens and no trailer changes. -/
theorem atomicWriteRest_spec :
    ∀ (cs : List (List Byte)) (s : Storage) (b : Nat) (ts : List Nat) (e : Nat),
    ChainFromEnd s b e ts → (b :: ts).Nodup →
    (∀ x ∈ b :: ts, x < s.pages.length) →
    s.pages.length ≤ InvalidBlockNumber →
    cs.length ≤ ts.length →
    ∃ s', atomicWriteRest s b cs = some s' ∧ WriteRestResult s s' b ts cs := by
  intro cs
  induction cs with
  | nil =>
    intro s b ts e hchain hnodup hbound hInv hlen
    exact ⟨s, rfl,
      { special_eq := fun _ => rfl, len_eq := rfl, free_eq := rfl
        insert_eq := rfl, head_b := rfl, heads := by simp
        frame := fun _ _ => rfl }⟩
  | cons c cs ih =>
    intro s b ts e hchain hnodup hbound hInv hlen
    cases ts with
    | nil => simp at hlen
    | cons t ts' =>
      obtain ⟨h1, h2⟩ := hchain
      have htlen : t < s.pages.length := hbound t (by simp)
      have htInv : t ≠ InvalidBlockNumber := by omega
      have hadv : atomicAdvance s b = some (s, t) := by
        unfold atomicAdvance
        rw [h1]
        exact if_neg htInv
      have hrw : atomicWriteRest s b (c :: cs)
          = atomicWriteRest (writeChunkAt s t c) t cs := by
        conv_lhs => rw [atomicWriteRest, hadv]
      set s2 := writeChunkAt s t c with hs2
      have hspEq : ∀ y, (s2.getPage y).special = (s.getPage y).special :=
        fun y => special_writeChunkAt s t c y
      have hchain2 : ChainFromEnd s2 t e ts' := chainFromEnd_of_special_eq hspEq h2
      have hnodup2 : (t :: ts').Nodup := hnodup.of_cons
      have hlen2 : s2.pages.length = s.pages.length := pages_length_writeChunkAt s t c
      have hbound2 : ∀ x ∈ t :: ts', x < s2.pages.length := by
        intro x hx
        rw [hlen2]
        exact hbound x (List.mem_cons_of_mem b hx)
      obtain ⟨s3, hws3, R⟩ := ih s2 t ts' e hchain2 hnodup2 hbound2 (by omega)
        (by simpa using hlen)
      refine ⟨s3, by rw [hrw]; exact hws3, ?_⟩
      have hbt : b ≠ t := by
        intro h
        exact (List.nodup_cons.mp hnodup).1 (h ▸ List.mem_cons_self t ts')
      have hbnot : b ∉ t :: ts' := (List.nodup_cons.mp hnodup).1
      refine { special_eq := ?_, len_eq := ?_, free_eq := ?_, insert_eq := ?_
               head_b := ?_, heads := ?_, frame := ?_ }
      · intro y
        rw [R.special_eq y, hspEq y]
      · rw [R.len_eq, hlen2]
      · rw [R.free_eq, hs2, freeList_writeChunkAt]
      · rw [R.insert_eq, hs2, insertBlockno_writeChunkAt]
      · show s3.headItem b = s.headItem b
        unfold Storage.headItem
        rw [R.frame b hbnot, hs2, getPage_writeChunkAt_ne s t c b hbt]
      · have hht : s3.headItem t = c := by
          rw [R.head_b, hs2, headItem_writeChunkAt_self s t c htlen]
        have hmap2 : ts'.map s2.headItem = ts'.map s.headItem := by
          apply List.map_congr_left
          intro x hx
          have hxt : x ≠ t := by
            intro h
            exact (List.nodup_cons.mp hnodup2).1 (h ▸ hx)
          exact headItem_writeChunkAt_ne s t c x hxt
        rw [List.map_cons, hht, R.heads, hmap2]
        simp
      · intro x hx
        have hxts : x ∉ t :: ts' := fun h => hx (List.mem_cons_of_mem b h)
        have hxt : x ≠ t := fun h => hxts (h ▸ List.mem_cons_self t ts')
        rw [R.frame x hxts, hs2, getPage_writeChunkAt_ne s t c x hxt]

/-- A list of distinct naturals all below `n` has at most `n` elements. -/
theorem length_le_of_nodup_lt (l : List Nat) (n : Nat) (hnd : l.Nodup)
    (hlt : ∀ x ∈ l, x < n) : l.length ≤ n := by
  classical
  have h1 : l.toFinset.card = l.length := List.toFinset_card_of_nodup hnd
  have h2 : l.toFinset ⊆ Finset.range n := by
    intro x hx
    rw [List.mem_toFinset] at hx
    exact Finset.mem_range.mpr (hlt x hx)
  have := Finset.card_le_card h2
  rw [h1, Finset.card_range] at this
  exact this

/-- The effect of `AtomicDirectory::write_bytes` of a non-empty value whose
    chunks fit on the slot's existing chain (the head block plus the already
    linked continuation blocks): the chunks land on the first blocks of the
    chain, nothing is allocated, and no trailer anywhere changes. -/
theorem atomicWriteBytes_spec (s : Storage) (b : Nat) (ts : List Nat) (e : Nat)
    (data : List Byte) (hdata : data ≠ [])
    (hchain : ChainFromEnd s b e ts) (hnodup : (b :: ts).Nodup)
    (hbound : ∀ x ∈ b :: ts, x < s.pages.length)
    (hInv : s.pages.length ≤ InvalidBlockNumber)
    (hlen : (chunksOf MAX_HEAP_TUPLE_SIZE data).length ≤ ts.length + 1) :
    ∃ s', atomicWriteBytes s data b = some s'
      ∧ WriteBytesResult s s' b ts data := by
  have hMAX : MAX_HEAP_TUPLE_SIZE ≠ 0 := by decide
  have hchunks : chunksOf MAX_HEAP_TUPLE_SIZE data
      = data.take MAX_HEAP_TUPLE_SIZE :: chunksOf MAX_HEAP_TUPLE_SIZE (data.drop MAX_HEAP_TUPLE_SIZE) :=
    chunksOf_ne_nil _ data hdata hMAX
  set c := data.take MAX_HEAP_TUPLE_SIZE with hc
  set cs := chunksOf MAX_HEAP_TUPLE_SIZE (data.drop MAX_HEAP_TUPLE_SIZE) with hcs
  have hwrite : atomicWriteBytes s data b = atomicWriteRest (writeChunkAt s b c) b cs := by
    unfold atomicWriteBytes
    rw [hchunks]
  have hmlen : (chunksOf MAX_HEAP_TUPLE_SIZE data).length = cs.length + 1 := by
    rw [hchunks]
    simp
  have hblen : b < s.pages.length := hbound b (by simp)
  set s0 := writeChunkAt s b c with hs0
  have hsp0 : ∀ y, (s0.getPage y).special = (s.getPage y).special :=
    fun y => special_writeChunkAt s b c y
  have hchain0 : ChainFromEnd s0 b e ts := chainFromEnd_of_special_eq hsp0 hchain
  have hlen0 : s0.pages.length = s.pages.length := pages_length_writeChunkAt s b c
  have hbound0 : ∀ x ∈ b :: ts, x < s0.pages.length := by
    intro x hx
    rw [hlen0]
    exact hbound x hx
  obtain ⟨s', hws', R⟩ := atomicWriteRest_spec cs s0 b ts e hchain0 hnodup hbound0
    (by omega) (by omega)
  refine ⟨s', by rw [hwrite]; exact hws', ?_⟩
  refine { special_eq := ?_, len_eq := ?_, free_eq := ?_, insert_eq := ?_
           heads := ?_, frame := ?_ }
  · intro y
    rw [R.special_eq y, hsp0 y]
  · rw [R.len_eq, hlen0]
  · rw [R.free_eq, hs0, freeList_writeChunkAt]
  · rw [R.insert_eq, hs0, insertBlockno_writeChunkAt]
  · have hhb : s'.headItem b = c := by
      rw [R.head_b, hs0, headItem_writeChunkAt_self s b c hblen]
    have hmap0 : ts.map s0.headItem = ts.map s.headItem := by
      apply List.map_congr_left
      intro x hx
      have hxb : x ≠ b := by
        intro h
        exact (List.nodup_cons.mp hnodup).1 (h ▸ hx)
      exact headItem_writeChunkAt_ne s b c x hxb
    rw [List.map_cons, hhb, R.heads, hmap0, hchunks]
    simp
  · intro x hx
    have hxb : x ≠ b := fun h => hx (h ▸ List.mem_cons_self b ts)
    have hxts : x ∉ ts := fun h => hx (List.mem_cons_of_mem b h)
    rw [R.frame x hx, hs0, getPage_writeChunkAt_ne s b c x hxb]

/-- Reading a slot back after a non-empty on-chain write: the accumulated
    bytes are the written value followed by whatever the old chain's
    unwritten tail blocks held, and the walk then runs off the chain's
    zeroed end trailer into the metadata block and the undefined read of its
    nonexistent special area (terminated-flag `false`). -/
theorem atomicRead_after_write (s : Storage) (b : Nat) (ts : List Nat)
    (data : List Byte) (hdata : data ≠ [])
    (hchain : ChainFromEnd s b 0 ts) (hnodup : (b :: ts).Nodup)
    (hbound : ∀ x ∈ b :: ts, x < s.pages.length)
    (hInv : s.pages.length ≤ InvalidBlockNumber)
    (hlen : (chunksOf MAX_HEAP_TUPLE_SIZE data).length ≤ ts.length + 1)
    (hzero : 0 ∉ b :: ts)
    (hmeta_it : (s.getPage 0).items = [])
    (hmeta_sp : (s.getPage 0).special = none) :
    ∃ s', atomicWriteBytes s data b = some s'
      ∧ atomicReadBytes s' b
          = (data ++ (((b :: ts).map s.headItem).drop
              (chunksOf MAX_HEAP_TUPLE_SIZE data).length).flatten, false) := by
  obtain ⟨s', hws', R⟩ :=
    atomicWriteBytes_spec s b ts 0 data hdata hchain hnodup hbound hInv hlen
  refine ⟨s', hws', ?_⟩
  have hchain' : ChainFromEnd s' b 0 ts := chainFromEnd_of_special_eq R.special_eq hchain
  have hvalid : ∀ x ∈ b :: ts, x ≠ InvalidBlockNumber := by
    intro x hx
    have := hbound x hx
    omega
  have hcount : ts.length + 1 ≤ s.pages.length :=
    length_le_of_nodup_lt (b :: ts) s.pages.length hnodup hbound
      |>.trans_eq' (by simp)
  have hfe : s'.pages.length + 1
      = (s.pages.length - ts.length) + (ts.length + 1) := by
    rw [R.len_eq]
    omega
  have hfuel : ∃ f, s.pages.length - ts.length = f + 1 := ⟨s.pages.length - ts.length - 1, by omega⟩
  obtain ⟨f, hf⟩ := hfuel
  have hmeta0 : s'.getPage 0 = s.getPage 0 := R.frame 0 hzero
  have hread0 : atomicReadLoop s' (f + 1) 0 = ([], false) := by
    rw [atomicReadLoop_step_none s' f 0 (by decide) (by rw [hmeta0]; exact hmeta_sp)]
    unfold Storage.headItem
    rw [hmeta0, hmeta_it]
    rfl
  unfold atomicReadBytes
  rw [hfe, hf, atomicReadLoop_chain s' ts b 0 (f + 1) hchain' hvalid, hread0, R.heads,
    List.flatten_append, flatten_chunksOf MAX_HEAP_TUPLE_SIZE (by decide) data]
  simp

/-- `atomicWriteRest` preserves every trailer that holds a non-sentinel
    value: the loop only overwrites a trailer it read as the sentinel. -/
theorem atomicWriteRest_special_mono (cs : List (List Byte)) :
    ∀ (s : Storage) (b x n : Nat) (s' : Storage),
    atomicWriteRest s b cs = some s' →
    (s.getPage x).special = some n → n ≠ InvalidBlockNumber →
    (s'.getPage x).special = some n := by
  induction cs with
  | nil =>
    intro s b x n s' hws hx _
    simp only [atomicWriteRest, Option.some.injEq] at hws
    rw [← hws]
    exact hx
  | cons c cs ih =>
    intro s b x n s' hws hx hn
    rw [atomicWriteRest] at hws
    cases hsp : (s.getPage b).special with
    | none =>
      rw [show atomicAdvance s b = none by unfold atomicAdvance; rw [hsp]] at hws
      simp at hws
    | some nxt =>
      by_cases hnxt : nxt = InvalidBlockNumber
      · have hadv : atomicAdvance s b
            = some ((((s.newBuffer true).2).setNext b (s.newBuffer true).1),
                (s.newBuffer true).1) := by
          unfold atomicAdvance
          rw [hsp, hnxt]
          exact if_pos rfl
        rw [hadv] at hws
        have hxb : x ≠ b := by
          intro h
          rw [h, hsp] at hx
          rw [Option.some.injEq] at hx
          exact hn (by rw [← hx, hnxt])
        have hx2 : ((writeChunkAt (((s.newBuffer true).2).setNext b (s.newBuffer true).1)
            (s.newBuffer true).1 c).getPage x).special = some n := by
          rw [special_writeChunkAt, getPage_setNext_ne _ b _ x hxb]
          exact special_newBuffer s true x n hx
        exact ih _ _ x n s' hws hx2 hn
      · have hadv : atomicAdvance s b = some (s, nxt) := by
          unfold atomicAdvance
          rw [hsp]
          exact if_neg hnxt
        rw [hadv] at hws
        have hx2 : ((writeChunkAt s nxt c).getPage x).special = some n := by
          rw [special_writeChunkAt]
          exact hx
        exact ih _ _ x n s' hws hx2 hn

/-- `AtomicDirectory::write_bytes` never resets an already-linked trailer:
    every trailer holding a non-sentinel block number survives any write
    that runs to completion, for every starting state, value and slot. -/
theorem atomicWriteBytes_special_mono (s : Storage) (data : List Byte) (b x n : Nat)
    (s' : Storage) (hw : atomicWriteBytes s data b = some s')
    (hx : (s.getPage x).special = some n) (hn : n ≠ InvalidBlockNumber) :
    (s'.getPage x).special = some n := by
  unfold atomicWriteBytes at hw
  cases hch : chunksOf MAX_HEAP_TUPLE_SIZE data with
  | nil =>
    rw [hch] at hw
    simp only [Option.some.injEq] at hw
    rw [← hw]
    exact hx
  | cons c cs =>
    rw [hch] at hw
    have hx0 : ((writeChunkAt s b c).getPage x).special = some n := by
      rw [special_writeChunkAt]
      exact hx
    exact atomicWriteRest_special_mono cs (writeChunkAt s b c) b x n s' hw hx0 hn

/-! ## Lemmas about the segment readers -/

theorem enum_take_drop_map {β : Type} (l : List Nat) (n m : Nat) (f : Nat → Nat → β) :
    ((l.enum.take n).drop m).map (fun p => f p.1 p.2)
      = (List.range' m (min n l.length - m)).map (fun i => f i (l.getD i 0)) := by
  have hL1 : ((l.enum.take n).drop m).length = min n l.length - m := by
    simp [List.enum_length]
  apply List.ext_getElem
  · rw [List.length_map, List.length_map, hL1, List.length_range']
  · intro i h1 h2
    rw [List.length_map, hL1] at h1
    have hmi : m + i < l.length := by omega
    simp only [List.getElem_map, List.getElem_drop, List.getElem_take,
      List.getElem_range'_1]
    rw [List.getElem_enum]
    simp only []
    congr 1
    rw [List.getD_eq_getElem?_getD, List.getElem?_eq_getElem hmi]
    rfl

/-- The uniform formula for a non-head block's slice: for `sB < i ≤ eB`, the
    slice of chunk `i` is the content's sub-range from the chunk's start,
    clipped to the requested end. -/
theorem sliceFor_middle (C : List Byte) (start e i sB eB : Nat)
    (heB : eB = e / MAX_HEAP_TUPLE_SIZE) (hsB : sB < i) (hiB : i ≤ eB) :
    sliceFor sB eB start e i ((C.drop (MAX_HEAP_TUPLE_SIZE * i)).take MAX_HEAP_TUPLE_SIZE)
      = (C.drop (MAX_HEAP_TUPLE_SIZE * i)).take
          (min MAX_HEAP_TUPLE_SIZE (e - MAX_HEAP_TUPLE_SIZE * i)) := by
  have hK : MAX_HEAP_TUPLE_SIZE = 8160 := rfl
  unfold sliceFor
  rw [if_neg (by omega : ¬ i = sB)]
  simp only [List.drop_zero, Nat.sub_zero]
  rw [List.take_take]
  by_cases hie : i = eB
  · rw [if_pos hie]
    congr 1
    rw [hK] at heB ⊢
    omega
  · rw [if_neg hie]
    congr 1
    rw [hK] at heB ⊢
    omega

/-- The head block's slice is the content's sub-range from `start`, clipped to
    the requested end and to the chunk's end. -/
theorem sliceFor_head (C : List Byte) (start e sB eB : Nat)
    (hsB : sB = start / MAX_HEAP_TUPLE_SIZE) (heB : eB = e / MAX_HEAP_TUPLE_SIZE)
    (hse : start < e) :
    sliceFor sB eB start e sB ((C.drop (MAX_HEAP_TUPLE_SIZE * sB)).take MAX_HEAP_TUPLE_SIZE)
      = (C.drop start).take
          (min (e - start) (MAX_HEAP_TUPLE_SIZE * (sB + 1) - start)) := by
  have hK : MAX_HEAP_TUPLE_SIZE = 8160 := rfl
  unfold sliceFor
  rw [if_pos rfl, List.drop_take, List.drop_drop, List.take_take]
  rw [show MAX_HEAP_TUPLE_SIZE * sB + start % MAX_HEAP_TUPLE_SIZE = start by
    rw [hK] at hsB ⊢; omega]
  congr 1
  by_cases hie : sB = eB
  · rw [if_pos hie]
    rw [hK] at hsB heB ⊢
    omega
  · rw [if_neg hie]
    rw [hK] at hsB heB ⊢
    omega

/-- Concatenating the slices of the blocks strictly after the head block, from
    block `m` up to the range's last block, yields the content from byte
    `MAX_HEAP_TUPLE_SIZE * m` up to the requested end. -/
theorem middle_join (C : List Byte) (start e sB eB : Nat)
    (heB : eB = e / MAX_HEAP_TUPLE_SIZE) :
    ∀ (cnt m : Nat), sB < m → e ≤ MAX_HEAP_TUPLE_SIZE * (m + cnt) → m + cnt ≤ eB + 1 →
    ((List.range' m cnt).map (fun i =>
        sliceFor sB eB start e i ((chunksOf MAX_HEAP_TUPLE_SIZE C).getD i []))).flatten
      = (C.drop (MAX_HEAP_TUPLE_SIZE * m)).take (e - MAX_HEAP_TUPLE_SIZE * m) := by
  have hK : MAX_HEAP_TUPLE_SIZE = 8160 := rfl
  intro cnt
  induction cnt with
  | zero =>
    intro m hm he _
    have h0 : e - MAX_HEAP_TUPLE_SIZE * m = 0 := by rw [hK] at he ⊢; omega
    simp [h0]
  | succ cnt ih =>
    intro m hm he hcnt
    rw [List.range'_succ, List.map_cons, List.flatten_cons]
    rw [chunksOf_getD MAX_HEAP_TUPLE_SIZE (by decide) C m]
    rw [sliceFor_middle C start e m sB eB heB hm (by omega)]
    rw [ih (m + 1) (by omega) (by rw [hK] at he ⊢; omega) (by omega)]
    rcases le_or_lt e (MAX_HEAP_TUPLE_SIZE * (m + 1)) with hcase | hcase
    · have hb0 : e - MAX_HEAP_TUPLE_SIZE * (m + 1) = 0 := by
        rw [hK] at hcase ⊢; omega
      have hmin : min MAX_HEAP_TUPLE_SIZE (e - MAX_HEAP_TUPLE_SIZE * m)
          = e - MAX_HEAP_TUPLE_SIZE * m := by
        rw [hK] at hcase ⊢; omega
      rw [hb0, List.take_zero, List.append_nil, hmin]
    · have ha : min MAX_HEAP_TUPLE_SIZE (e - MAX_HEAP_TUPLE_SIZE * m)
          = MAX_HEAP_TUPLE_SIZE := by
        rw [hK] at hcase ⊢; omega
      rw [ha,
        show MAX_HEAP_TUPLE_SIZE * (m + 1)
          = MAX_HEAP_TUPLE_SIZE * m + MAX_HEAP_TUPLE_SIZE by ring,
        ← List.drop_drop,
        show e - MAX_HEAP_TUPLE_SIZE * m
          = MAX_HEAP_TUPLE_SIZE + (e - (MAX_HEAP_TUPLE_SIZE * m + MAX_HEAP_TUPLE_SIZE)) by
            rw [hK] at hcase ⊢; omega,
        List.take_add]

theorem take_append_drop_take {α : Type} (l : List α) (a b : Nat) (h : a ≤ b) :
    l.take a ++ (l.drop a).take (b - a) = l.take b := by
  rw [← List.take_add]
  congr 1
  omega

/-- Joining the per-block slices of blocks `start/k` up to the last block
    covered by `[start, e)` reconstructs the content's `[start, e)` range. -/
theorem slices_join (s : Storage) (h : SegmentHandle) (C : List Byte)
    (hblen : h.blocks.length = (chunksOf MAX_HEAP_TUPLE_SIZE C).length)
    (hlayout : ∀ i, i < h.blocks.length →
      s.headItem (h.blocks.getD i 0) = (chunksOf MAX_HEAP_TUPLE_SIZE C).getD i [])
    (start e : Nat) (hse : start < e) (heC : e ≤ C.length) :
    ((List.range' (start / MAX_HEAP_TUPLE_SIZE)
        (min (e / MAX_HEAP_TUPLE_SIZE + 1) h.blocks.length - start / MAX_HEAP_TUPLE_SIZE)).map
      (fun i => sliceFor (start / MAX_HEAP_TUPLE_SIZE) (e / MAX_HEAP_TUPLE_SIZE)
        start e i (s.headItem (h.blocks.getD i 0)))).flatten
      = (C.drop start).take (e - start) := by
  have hK : MAX_HEAP_TUPLE_SIZE = 8160 := rfl
  have hCle : C.length ≤ MAX_HEAP_TUPLE_SIZE * (chunksOf MAX_HEAP_TUPLE_SIZE C).length :=
    chunksOf_length_le MAX_HEAP_TUPLE_SIZE (by decide) C
  have hsBlen : start / MAX_HEAP_TUPLE_SIZE < h.blocks.length := by
    rw [hblen]
    exact chunksOf_length_lt _ (by decide) C start (by omega)
  have hsBeB : start / MAX_HEAP_TUPLE_SIZE ≤ e / MAX_HEAP_TUPLE_SIZE := by
    rw [hK]; omega
  rw [List.map_congr_left (fun i hi => by
    obtain ⟨h1, h2⟩ := List.mem_range'_1.mp hi
    rw [hlayout i (by omega)])]
  obtain ⟨cnt', hcnt'⟩ : ∃ cnt',
      min (e / MAX_HEAP_TUPLE_SIZE + 1) h.blocks.length - start / MAX_HEAP_TUPLE_SIZE
        = cnt' + 1 :=
    ⟨min (e / MAX_HEAP_TUPLE_SIZE + 1) h.blocks.length - start / MAX_HEAP_TUPLE_SIZE - 1,
      by omega⟩
  rw [hcnt', List.range'_succ, List.map_cons, List.flatten_cons,
    chunksOf_getD MAX_HEAP_TUPLE_SIZE (by decide) C (start / MAX_HEAP_TUPLE_SIZE),
    sliceFor_head C start e _ _ rfl rfl hse]
  have hsum : start / MAX_HEAP_TUPLE_SIZE + 1 + cnt'
      = min (e / MAX_HEAP_TUPLE_SIZE + 1) h.blocks.length := by omega
  have hcap2 : e ≤ MAX_HEAP_TUPLE_SIZE * (start / MAX_HEAP_TUPLE_SIZE + 1 + cnt') := by
    rw [hsum]
    rcases le_or_lt (e / MAX_HEAP_TUPLE_SIZE + 1) h.blocks.length with hm | hm
    · rw [min_eq_left hm, hK]
      omega
    · rw [min_eq_right (le_of_lt hm), hblen]
      omega
  rw [middle_join C start e (start / MAX_HEAP_TUPLE_SIZE) (e / MAX_HEAP_TUPLE_SIZE) rfl
    cnt' (start / MAX_HEAP_TUPLE_SIZE + 1) (by omega) hcap2 (by omega)]
  rcases le_or_lt e (MAX_HEAP_TUPLE_SIZE * (start / MAX_HEAP_TUPLE_SIZE + 1)) with hc | hc
  · have h1 : e - MAX_HEAP_TUPLE_SIZE * (start / MAX_HEAP_TUPLE_SIZE + 1) = 0 := by
      rw [hK] at hc ⊢; omega
    have h2 : min (e - start)
        (MAX_HEAP_TUPLE_SIZE * (start / MAX_HEAP_TUPLE_SIZE + 1) - start) = e - start := by
      rw [hK] at hc ⊢; omega
    rw [h1, h2, List.take_zero, List.append_nil]
  · have h2 : min (e - start)
        (MAX_HEAP_TUPLE_SIZE * (start / MAX_HEAP_TUPLE_SIZE + 1) - start)
        = MAX_HEAP_TUPLE_SIZE * (start / MAX_HEAP_TUPLE_SIZE + 1) - start := by
      rw [hK] at hc ⊢; omega
    rw [h2,
      show C.drop (MAX_HEAP_TUPLE_SIZE * (start / MAX_HEAP_TUPLE_SIZE + 1))
        = (C.drop start).drop
            (MAX_HEAP_TUPLE_SIZE * (start / MAX_HEAP_TUPLE_SIZE + 1) - start) by
          rw [List.drop_drop]
          congr 1
          rw [hK] at hc ⊢; omega,
      show e - MAX_HEAP_TUPLE_SIZE * (start / MAX_HEAP_TUPLE_SIZE + 1)
        = (e - start) - (MAX_HEAP_TUPLE_SIZE * (start / MAX_HEAP_TUPLE_SIZE + 1) - start) by
          rw [hK] at hc ⊢; omega]
    exact take_append_drop_take _ _ _ (by rw [hK] at hc ⊢; omega)

/-- `SegmentHandleReader::read_bytes` on any in-bounds, non-degenerate range of
    a laid-out segment returns exactly the corresponding content sub-slice. -/
theorem segmentHandleReadBytes_ok (s : Storage) (h : SegmentHandle) (C : List Byte)
    (hl : SegmentLayout s h C) (start e : Nat) (hse : start < e) (heC : e ≤ C.length) :
    segmentHandleReadBytes s h start e = .ok ((C.drop start).take (e - start)) := by
  have hmin : min e h.total_bytes = e := by rw [hl.total]; omega
  unfold segmentHandleReadBytes
  rw [hmin, if_neg (by omega : ¬ start ≥ e)]
  rw [enum_take_drop_map h.blocks (e / MAX_HEAP_TUPLE_SIZE + 1) (start / MAX_HEAP_TUPLE_SIZE)
    (fun i b => sliceFor (start / MAX_HEAP_TUPLE_SIZE) (e / MAX_HEAP_TUPLE_SIZE)
      start e i (s.headItem b))]
  rw [slices_join s h C hl.blocks_len hl.layout start e hse heC]

/-! ## Lemmas about `FileHandleReader` -/

theorem fileFold_none (s : Storage) (h : SegmentHandle) (sB eB start e : Nat)
    (is : List Nat) :
    is.foldl (fileReadStep s h sB eB start e) none = none := by
  induction is with
  | nil => rfl
  | cons i is ih => simpa [fileReadStep] using ih

theorem fileFold_some (s : Storage) (h : SegmentHandle) (sB eB start e : Nat) :
    ∀ (is : List Nat) (acc : List Byte), (∀ i ∈ is, i < h.blocks.length) →
    is.foldl (fileReadStep s h sB eB start e) (some acc)
      = some (acc ++ (is.map (fun i =>
          sliceFor sB eB start e i (s.headItem (h.blocks.getD i 0)))).flatten) := by
  intro is
  induction is with
  | nil => intro acc _; simp
  | cons i is ih =>
    intro acc hin
    have hi : i < h.blocks.length := hin i (by simp)
    have hblk : h.blocks[i]? = some (h.blocks.getD i 0) := by
      rw [List.getElem?_eq_getElem hi, List.getD_eq_getElem?_getD,
        List.getElem?_eq_getElem hi]
      rfl
    show List.foldl _ (fileReadStep s h sB eB start e (some acc) i) is = _
    rw [show fileReadStep s h sB eB start e (some acc) i
        = some (acc ++ sliceFor sB eB start e i (s.headItem (h.blocks.getD i 0))) by
      unfold fileReadStep
      rw [hblk]]
    rw [ih _ (fun j hj => hin j (by simp [hj]))]
    simp

theorem fileFold_oob (s : Storage) (h : SegmentHandle) (sB eB start e : Nat) :
    ∀ (is : List Nat) (acc : Option (List Byte)),
    (∃ i ∈ is, h.blocks.length ≤ i) →
    is.foldl (fileReadStep s h sB eB start e) acc = none := by
  intro is
  induction is with
  | nil => intro acc hex; simp at hex
  | cons i is ih =>
    intro acc hex
    cases acc with
    | none =>
      show List.foldl _ (fileReadStep s h sB eB start e none i) is = none
      rw [show fileReadStep s h sB eB start e none i = none from rfl]
      exact fileFold_none s h sB eB start e is
    | some d =>
      rcases hex with ⟨j, hj, hjlen⟩
      rcases List.mem_cons.mp hj with rfl | hj'
      · have hblk : h.blocks[j]? = none := List.getElem?_eq_none hjlen
        show List.foldl _ (fileReadStep s h sB eB start e (some d) j) is = none
        rw [show fileReadStep s h sB eB start e (some d) j = none by
          unfold fileReadStep
          rw [hblk]]
        exact fileFold_none s h sB eB start e is
      · show List.foldl _ (fileReadStep s h sB eB start e (some d) i) is = none
        cases hstep : fileReadStep s h sB eB start e (some d) i with
        | none => exact fileFold_none s h sB eB start e is
        | some d' => exact ih _ ⟨j, hj', hjlen⟩

/-- The number of chunks of a non-empty list. -/
theorem chunksOf_length_eq (k : Nat) (hk : 0 < k) (l : List Byte) (hl : l ≠ []) :
    (chunksOf k l).length = (l.length - 1) / k + 1 := by
  rw [chunksOf_ne_nil k l hl hk.ne']
  by_cases hsmall : l.length ≤ k
  · have hdrop : l.drop k = [] := List.drop_eq_nil_of_le hsmall
    rw [hdrop, chunksOf_nil]
    have hpos : 0 < l.length := List.length_pos.mpr hl
    have : (l.length - 1) / k = 0 := Nat.div_eq_of_lt (by omega)
    simp [this]
  · have hlen : 0 < (l.drop k).length := by
      simp only [List.length_drop]
      omega
    have hdec : (l.drop k).length < l.length := by
      have : 0 < l.length := List.length_pos.mpr hl
      simpa [List.length_drop] using Nat.sub_lt this hk
    have ih := chunksOf_length_eq k hk (l.drop k) (by
      intro hnil
      rw [hnil] at hlen
      simp at hlen)
    rw [List.length_cons, ih]
    simp only [List.length_drop]
    have harith : (l.length - 1) / k = (l.length - k - 1) / k + 1 := by
      have h1 : l.length - 1 = (l.length - k - 1) + k := by omega
      rw [h1, Nat.add_div_right _ hk]
    omega
termination_by l.length

/-- `FileHandleReader::read_bytes` over the whole recorded range of a laid-out
    segment whose length is not a multiple of the page payload size returns the
    full content. -/
theorem fileHandleReadBytes_full (s : Storage) (h : SegmentHandle) (C : List Byte)
    (hl : SegmentLayout s h C) (hC : C ≠ [])
    (hmod : C.length % MAX_HEAP_TUPLE_SIZE ≠ 0) :
    fileHandleReadBytes s h 0 C.length = some C := by
  have hK : MAX_HEAP_TUPLE_SIZE = 8160 := rfl
  have hCpos : 0 < C.length := List.length_pos.mpr hC
  have hnchunks : (chunksOf MAX_HEAP_TUPLE_SIZE C).length = (C.length - 1) / MAX_HEAP_TUPLE_SIZE + 1 :=
    chunksOf_length_eq _ (by decide) C hC
  have heBlen : C.length / MAX_HEAP_TUPLE_SIZE + 1 = h.blocks.length := by
    rw [hl.blocks_len, hnchunks]
    rw [hK] at hmod ⊢
    omega
  unfold fileHandleReadBytes
  rw [Nat.zero_div, Nat.sub_zero]
  rw [fileFold_some s h 0 (C.length / MAX_HEAP_TUPLE_SIZE) 0 C.length
    (List.range' 0 (C.length / MAX_HEAP_TUPLE_SIZE + 1)) []
    (by
      intro i hi
      obtain ⟨_, h2⟩ := List.mem_range'_1.mp hi
      omega)]
  have hjoin := slices_join s h C hl.blocks_len hl.layout 0 C.length hCpos (le_refl _)
  rw [Nat.zero_div] at hjoin
  rw [show min (C.length / MAX_HEAP_TUPLE_SIZE + 1) h.blocks.length
      = C.length / MAX_HEAP_TUPLE_SIZE + 1 by omega] at hjoin
  rw [Nat.sub_zero] at hjoin
  rw [hjoin]
  simp

/-- `FileHandleReader::read_bytes` over the whole recorded range panics (out of
    bounds block index) when the segment's length is a positive multiple of the
    page payload size. -/
theorem fileHandleReadBytes_full_oob (s : Storage) (h : SegmentHandle) (C : List Byte)
    (hl : SegmentLayout s h C) (hC : C ≠ [])
    (hmod : C.length % MAX_HEAP_TUPLE_SIZE = 0) :
    fileHandleReadBytes s h 0 C.length = none := by
  have hK : MAX_HEAP_TUPLE_SIZE = 8160 := rfl
  have hCpos : 0 < C.length := List.length_pos.mpr hC
  have hnchunks : (chunksOf MAX_HEAP_TUPLE_SIZE C).length = (C.length - 1) / MAX_HEAP_TUPLE_SIZE + 1 :=
    chunksOf_length_eq _ (by decide) C hC
  have heBlen : h.blocks.length ≤ C.length / MAX_HEAP_TUPLE_SIZE := by
    rw [hl.blocks_len, hnchunks]
    rw [hK] at hmod ⊢
    omega
  unfold fileHandleReadBytes
  rw [Nat.zero_div, Nat.sub_zero]
  apply fileFold_oob
  refine ⟨C.length / MAX_HEAP_TUPLE_SIZE, ?_, heBlen⟩
  apply List.mem_range'_1.mpr
  omega

/-! ## Lemmas about the segment-handle catalog -/

theorem getPage_addItem_ne (s : Storage) (b : Nat) (it : Item) (y : Nat)
    (h : y ≠ b) : (s.addItem b it).getPage y = s.getPage y :=
  getPage_setPage_ne _ _ _ _ h

theorem getPage_addItem_self (s : Storage) (b : Nat) (it : Item)
    (hb : b < s.pages.length) :
    (s.addItem b it).getPage b
      = { s.getPage b with items := (s.getPage b).items ++ [it] } := by
  unfold Storage.addItem
  exact getPage_setPage_self _ _ _ hb

theorem special_addItem (s : Storage) (b : Nat) (it : Item) (y : Nat) :
    ((s.addItem b it).getPage y).special = (s.getPage y).special := by
  by_cases hyb : y = b
  · subst hyb
    by_cases hy : y < s.pages.length
    · rw [getPage_addItem_self s y it hy]
    · unfold Storage.addItem Storage.setPage
      rw [List.set_eq_of_length_le (Nat.le_of_not_lt hy)]
  · rw [getPage_addItem_ne s b it y hyb]

theorem pages_length_addItem (s : Storage) (b : Nat) (it : Item) :
    (s.addItem b it).pages.length = s.pages.length :=
  pages_length_setPage _ _ _

theorem freeList_addItem (s : Storage) (b : Nat) (it : Item) :
    (s.addItem b it).freeList = s.freeList := rfl

theorem insertBlockno_addItem (s : Storage) (b : Nat) (it : Item) :
    (s.addItem b it).insertBlockno = s.insertBlockno := rfl

/-- Extending a chain by an overflow: the state update redirects only the old
    tail's trailer to a freshly initialized block whose own trailer reads the
    `PageInit`-zeroed value, block 0, so the extended chain ends at 0. -/
theorem chainFromEnd_extend (ts : List Nat) :
    ∀ (s s' : Storage) (b e nb : Nat),
    ChainFromEnd s b e ts →
    (b :: ts).Nodup →
    (∀ x ∈ b :: ts, x ≠ ts.getLastD b →
      (s'.getPage x).special = (s.getPage x).special) →
    (s'.getPage (ts.getLastD b)).special = some nb →
    (s'.getPage nb).special = some 0 →
    ChainFromEnd s' b 0 (ts ++ [nb]) := by
  induction ts with
  | nil =>
    intro s s' b e nb _ _ _ htail hnb
    exact ⟨htail, hnb⟩
  | cons t ts' ih =>
    intro s s' b e nb hchain hnodup hpres htail hnb
    obtain ⟨h1, h2⟩ := hchain
    have htlast : (t :: ts').getLastD b = ts'.getLastD t := by
      cases ts' <;> simp [List.getLastD]
    refine ⟨?_, ?_⟩
    · have hmem : (t :: ts').getLastD b ∈ t :: ts' := by
        rw [htlast]
        exact List.getLastD_mem_cons ts' t
      have hbne : b ≠ (t :: ts').getLastD b := by
        intro h
        exact (List.nodup_cons.mp hnodup).1 (h ▸ hmem)
      rw [hpres b (by simp) hbne]
      exact h1
    · apply ih s s' t e nb h2 hnodup.of_cons
      · intro x hx hxne
        apply hpres x (List.mem_cons_of_mem b hx)
        rw [htlast]
        exact hxne
      · rw [← htlast]; exact htail
      · exact hnb

theorem scanItems_seg (p : String) (hs : List SegmentHandle) :
    scanItems p (hs.map Item.seg) = .ok (hs.find? (fun h' => decide (h'.path = p))) := by
  induction hs with
  | nil => rfl
  | cons h' rest ih =>
    by_cases hp : h'.path = p
    · simp [scanItems, List.find?, hp]
    · simp only [List.map_cons, scanItems, if_neg hp, ih, List.find?]
      rw [decide_eq_false hp]

theorem segmentHandleOpenLoop_invalid (s : Storage) (p : String) (fuel : Nat) :
    segmentHandleOpenLoop s p (fuel + 1) InvalidBlockNumber = some (.ok none) := by
  simp [segmentHandleOpenLoop]

theorem segmentHandleOpenLoop_step_found (s : Storage) (p : String)
    (fuel b : Nat) (hh : SegmentHandle) (hb : b ≠ InvalidBlockNumber)
    (hscan : scanItems p (s.getPage b).items = .ok (some hh)) :
    segmentHandleOpenLoop s p (fuel + 1) b = some (.ok (some hh)) := by
  rw [segmentHandleOpenLoop, if_neg hb, hscan]

theorem segmentHandleOpenLoop_step_none (s : Storage) (p : String)
    (fuel b nxt : Nat) (hb : b ≠ InvalidBlockNumber)
    (hscan : scanItems p (s.getPage b).items = .ok none)
    (hsp : (s.getPage b).special = some nxt) :
    segmentHandleOpenLoop s p (fuel + 1) b = segmentHandleOpenLoop s p fuel nxt := by
  rw [segmentHandleOpenLoop, if_neg hb, hscan]
  show (match (s.getPage b).special with
    | none => none
    | some nxt => segmentHandleOpenLoop s p fuel nxt) = _
  rw [hsp]

theorem segmentHandleOpenLoop_step_undef (s : Storage) (p : String)
    (fuel b : Nat) (hb : b ≠ InvalidBlockNumber)
    (hscan : scanItems p (s.getPage b).items = .ok none)
    (hsp : (s.getPage b).special = none) :
    segmentHandleOpenLoop s p (fuel + 1) b = none := by
  rw [segmentHandleOpenLoop, if_neg hb, hscan]
  show (match (s.getPage b).special with
    | none => none
    | some nxt => segmentHandleOpenLoop s p fuel nxt) = none
  rw [hsp]

/-- Walking a catalog chain: the first matching recorded entry is returned
    as soon as its page is scanned; with no match the walk continues from the
    chain's end value with the remaining fuel. -/
theorem segmentHandleOpenLoop_chain (s : Storage) (p : String) (ts : List Nat) :
    ∀ (b e fuel : Nat) (pe : List (List SegmentHandle)),
    ChainFromEnd s b e ts →
    (∀ x ∈ b :: ts, x ≠ InvalidBlockNumber) →
    pe.length = ts.length + 1 →
    (∀ i, i < pe.length →
      (s.getPage ((b :: ts).getD i 0)).items = (pe.getD i []).map Item.seg) →
    segmentHandleOpenLoop s p (fuel + (ts.length + 1)) b
      = match pe.flatten.find? (fun h' => decide (h'.path = p)) with
        | some h' => some (.ok (some h'))
        | none => segmentHandleOpenLoop s p fuel e := by
  induction ts with
  | nil =>
    intro b e fuel pe hchain hvalid hpelen hitems
    obtain ⟨q, rfl⟩ : ∃ q, pe = [q] := by
      cases pe with
      | nil => simp at hpelen
      | cons q pe' =>
        cases pe' with
        | nil => exact ⟨q, rfl⟩
        | cons _ _ => simp at hpelen
    have h1 : (s.getPage b).special = some e := hchain
    have hb : (s.getPage b).items = q.map Item.seg := by
      have := hitems 0 (by simp)
      simpa using this
    have hscan : scanItems p (s.getPage b).items
        = .ok (q.find? (fun h' => decide (h'.path = p))) := by
      rw [hb, scanItems_seg]
    rw [show fuel + (List.length ([] : List Nat) + 1) = fuel + 1 by simp]
    cases hfind : q.find? (fun h' => decide (h'.path = p)) with
    | some h' =>
      rw [segmentHandleOpenLoop_step_found s p fuel b h' (hvalid b (by simp))
        (by rw [hscan, hfind])]
      simp [hfind]
    | none =>
      rw [segmentHandleOpenLoop_step_none s p fuel b e (hvalid b (by simp))
        (by rw [hscan, hfind]) h1]
      simp [hfind]
  | cons t ts' ih =>
    intro b e fuel pe hchain hvalid hpelen hitems
    obtain ⟨q, pe', rfl⟩ : ∃ q pe', pe = q :: pe' := by
      cases pe with
      | nil => simp at hpelen
      | cons q pe' => exact ⟨q, pe', rfl⟩
    obtain ⟨h1, h2⟩ := hchain
    have hb : (s.getPage b).items = q.map Item.seg := by
      have := hitems 0 (by simp)
      simpa using this
    have hscan : scanItems p (s.getPage b).items
        = .ok (q.find? (fun h' => decide (h'.path = p))) := by
      rw [hb, scanItems_seg]
    rw [show fuel + ((t :: ts').length + 1) = (fuel + (ts'.length + 1)) + 1 by
      simp only [List.length_cons]
      omega]
    cases hfind : q.find? (fun h' => decide (h'.path = p)) with
    | some h' =>
      rw [segmentHandleOpenLoop_step_found s p _ b h' (hvalid b (by simp))
        (by rw [hscan, hfind])]
      simp [hfind, List.find?_append]
    | none =>
      rw [segmentHandleOpenLoop_step_none s p _ b t (hvalid b (by simp))
        (by rw [hscan, hfind]) h1]
      rw [ih t e fuel pe' h2
        (fun x hx => hvalid x (List.mem_cons_of_mem b hx))
        (by simpa using hpelen)
        (fun i hilt => by
          have := hitems (i + 1) (by simp at hpelen ⊢; omega)
          simpa using this)]
      simp only [List.flatten_cons, List.find?_append, hfind, Option.none_or]

/-- `SegmentHandle::open` on a never-overflowed catalog (single head page,
    sentinel trailer): returns the first recorded entry whose path matches,
    or a clean `Ok(None)` when no entry does. -/
theorem segmentHandleOpen_eq_sentinel (s : Storage)
    (pe : List (List SegmentHandle)) (p : String)
    (hcat : CatalogOK s [] pe) (hInv : s.pages.length ≤ InvalidBlockNumber) :
    segmentHandleOpen s p
      = some (.ok (pe.flatten.find? (fun h' => decide (h'.path = p)))) := by
  unfold segmentHandleOpen
  have hlen : 0 < s.pages.length := by
    have := hcat.bounded SEGMENT_HANDLE_BLOCKNO (by simp)
    omega
  rw [show s.pages.length + 1
      = s.pages.length + (List.length ([] : List Nat) + 1) by simp]
  rw [segmentHandleOpenLoop_chain s p [] SEGMENT_HANDLE_BLOCKNO (catalogEnd [])
    s.pages.length pe hcat.chain
    (by
      intro x hx
      have := hcat.bounded x hx
      omega)
    hcat.len_eq hcat.items]
  cases hfind : pe.flatten.find? (fun h' => decide (h'.path = p)) with
  | some h' => simp [hfind]
  | none =>
    simp only [hfind]
    obtain ⟨f, hf⟩ : ∃ f, s.pages.length = f + 1 := ⟨s.pages.length - 1, by omega⟩
    rw [show catalogEnd [] = InvalidBlockNumber from rfl, hf,
      segmentHandleOpenLoop_invalid]

/-- `SegmentHandle::open` finds every recorded entry, whatever value closes
    the chain: the walk early-returns from the page holding the entry and
    never consults the tail's trailer. -/
theorem segmentHandleOpen_found (s : Storage) (ts : List Nat) (e : Nat)
    (pe : List (List SegmentHandle)) (p : String) (hh : SegmentHandle)
    (hchain : ChainFromEnd s SEGMENT_HANDLE_BLOCKNO e ts)
    (hnodup : (SEGMENT_HANDLE_BLOCKNO :: ts).Nodup)
    (hbound : ∀ x ∈ SEGMENT_HANDLE_BLOCKNO :: ts, x < s.pages.length)
    (hInv : s.pages.length ≤ InvalidBlockNumber)
    (hpelen : pe.length = ts.length + 1)
    (hitems : ∀ i, i < pe.length →
      (s.getPage ((SEGMENT_HANDLE_BLOCKNO :: ts).getD i 0)).items
        = (pe.getD i []).map Item.seg)
    (hfind : pe.flatten.find? (fun h' => decide (h'.path = p)) = some hh) :
    segmentHandleOpen s p = some (.ok (some hh)) := by
  unfold segmentHandleOpen
  have hcount : ts.length + 1 ≤ s.pages.length := by
    have := length_le_of_nodup_lt (SEGMENT_HANDLE_BLOCKNO :: ts) s.pages.length
      hnodup hbound
    simpa using this
  rw [show s.pages.length + 1
      = (s.pages.length - ts.length) + (ts.length + 1) by omega]
  rw [segmentHandleOpenLoop_chain s p ts SEGMENT_HANDLE_BLOCKNO e
    (s.pages.length - ts.length) pe hchain
    (by
      intro x hx
      have := hbound x hx
      omega)
    hpelen hitems]
  simp [hfind]

/-- After any catalog overflow the chain's end trailer reads block 0, so
    `SegmentHandle::open` of a path with no recorded entry scans the whole
    chain, follows the zeroed trailer onto the metadata block, and then reads
    the special area of a page that has none: no defined result. -/
theorem segmentHandleOpen_absent_overflow (s : Storage) (ts : List Nat)
    (pe : List (List SegmentHandle)) (p : String)
    (hcat : CatalogOK s ts pe) (hInv : s.pages.length ≤ InvalidBlockNumber)
    (hts : ts ≠ [])
    (hfind : pe.flatten.find? (fun h' => decide (h'.path = p)) = none) :
    segmentHandleOpen s p = none := by
  unfold segmentHandleOpen
  have hcount : ts.length + 1 ≤ s.pages.length := by
    have := length_le_of_nodup_lt (SEGMENT_HANDLE_BLOCKNO :: ts) s.pages.length
      hcat.nodup hcat.bounded
    simpa using this
  rw [show s.pages.length + 1
      = (s.pages.length - ts.length) + (ts.length + 1) by omega]
  rw [segmentHandleOpenLoop_chain s p ts SEGMENT_HANDLE_BLOCKNO (catalogEnd ts)
    (s.pages.length - ts.length) pe hcat.chain
    (by
      intro x hx
      have := hcat.bounded x hx
      omega)
    hcat.len_eq hcat.items]
  simp only [hfind]
  have he : catalogEnd ts = 0 := by
    unfold catalogEnd
    rw [if_neg hts]
  obtain ⟨f, hf⟩ : ∃ f, s.pages.length - ts.length = f + 1 :=
    ⟨s.pages.length - ts.length - 1, by omega⟩
  rw [he, hf]
  exact segmentHandleOpenLoop_step_undef s p f 0 (by decide)
    (by
      have h0 : (s.getPage 0).items = [] := hcat.meta_items
      rw [h0]
      rfl)
    hcat.meta_special

/-- A path with no recorded entry is never reported found: the walk returns
    a clean `Ok(None)` on a never-overflowed catalog and no defined result
    after an overflow, but in no case a handle. -/
theorem segmentHandleOpen_absent_not_found (s : Storage) (ts : List Nat)
    (pe : List (List SegmentHandle)) (p : String)
    (hcat : CatalogOK s ts pe) (hInv : s.pages.length ≤ InvalidBlockNumber)
    (hfind : pe.flatten.find? (fun h' => decide (h'.path = p)) = none) :
    ∀ hh, segmentHandleOpen s p ≠ some (.ok (some hh)) := by
  intro hh
  cases hts : ts with
  | nil =>
    rw [segmentHandleOpen_eq_sentinel s pe p (hts ▸ hcat) hInv, hfind]
    simp
  | cons t ts' =>
    rw [segmentHandleOpen_absent_overflow s ts pe p hcat hInv (by rw [hts]; simp)
      hfind]
    simp

theorem getD_length_eq_getLastD {α : Type} (l : List α) (b d : α) :
    (b :: l).getD l.length d = l.getLastD b := by
  induction l generalizing b with
  | nil => rfl
  | cons x xs ih =>
    rw [List.getLastD_cons]
    simpa using ih x

theorem flatten_set_last {α : Type} (pe : List (List α)) (x : α) (hne : pe ≠ []) :
    (pe.set (pe.length - 1) (pe.getD (pe.length - 1) [] ++ [x])).flatten
      = pe.flatten ++ [x] := by
  induction pe with
  | nil => contradiction
  | cons q pe' ih =>
    cases pe' with
    | nil => simp
    | cons q' pe'' =>
      have hlen : (q :: q' :: pe'').length - 1 = (q' :: pe'').length - 1 + 1 := by
        simp
      rw [hlen]
      rw [List.getD_cons_succ, List.set_cons_succ, List.flatten_cons,
        ih (by simp), List.flatten_cons]
      simp

theorem nodup_getD_ne {l : List Nat} (hnd : l.Nodup) (i j : Nat)
    (hi : i < l.length) (hj : j < l.length) (hij : i ≠ j) :
    l.getD i 0 ≠ l.getD j 0 := by
  rw [List.getD_eq_getElem?_getD, List.getD_eq_getElem?_getD,
    List.getElem?_eq_getElem hi, List.getElem?_eq_getElem hj]
  intro hcontra
  simp only [Option.getD_some] at hcontra
  exact hij (List.Nodup.getElem_inj_iff hnd |>.mp hcontra)

theorem getLastD_concat' {α : Type} (l : List α) (a d : α) :
    (l ++ [a]).getLastD d = a := by
  induction l generalizing d with
  | nil => rfl
  | cons x xs ih =>
    rw [List.cons_append, List.getLastD_cons]
    exact ih x

theorem getD_mem {α : Type} (l : List α) (i : Nat) (d : α) (h : i < l.length) :
    l.getD i d ∈ l := by
  rw [List.getD_eq_getElem?_getD, List.getElem?_eq_getElem h]
  simp only [Option.getD_some]
  exact List.getElem_mem h

theorem getD_append_lt {α : Type} (l1 l2 : List α) (d : α) (i : Nat)
    (h : i < l1.length) : (l1 ++ l2).getD i d = l1.getD i d := by
  rw [List.getD_eq_getElem?_getD, List.getD_eq_getElem?_getD,
    List.getElem?_append_left h]

theorem getD_append_length {α : Type} (l1 l2 : List α) (d a : α) :
    (l1 ++ a :: l2).getD l1.length d = a := by
  rw [List.getD_eq_getElem?_getD, List.getElem?_append_right (le_refl _)]
  simp

/-- The effect of a successful `SegmentHandle::create` on a well-formed
    catalog: the entry is appended (on the tail page, or on a newly linked
    tail page whose own trailer keeps its zeroed value), the catalog stays
    well-formed, and nothing outside the chain (and the possibly new tail
    page) changes. -/
theorem segmentHandleCreate_spec (fits : Page → SegmentHandle → Bool) (s : Storage)
    (h : SegmentHandle) (ts : List Nat) (pe : List (List SegmentHandle))
    (hcat : CatalogOK s ts pe) (hfree : s.freeList = [])
    (hflag : (segmentHandleCreate fits s h).2 = true) :
    ∃ ts' pe',
      CatalogOK (segmentHandleCreate fits s h).1 ts' pe'
      ∧ pe'.flatten = pe.flatten ++ [h]
      ∧ (segmentHandleCreate fits s h).1.freeList = []
      ∧ s.pages.length ≤ (segmentHandleCreate fits s h).1.pages.length
      ∧ (segmentHandleCreate fits s h).1.pages.length ≤ s.pages.length + 1
      ∧ (∀ x, x ∉ SEGMENT_HANDLE_BLOCKNO :: ts → x < s.pages.length →
          (segmentHandleCreate fits s h).1.getPage x = s.getPage x) := by
  have hib : s.insertBlockno = ts.getLastD SEGMENT_HANDLE_BLOCKNO := hcat.insert_tail
  have htl_mem : ts.getLastD SEGMENT_HANDLE_BLOCKNO ∈ SEGMENT_HANDLE_BLOCKNO :: ts :=
    List.getLastD_mem_cons ts _
  have htl_lt : ts.getLastD SEGMENT_HANDLE_BLOCKNO < s.pages.length :=
    hcat.bounded _ htl_mem
  have htl_pos : 0 < ts.getLastD SEGMENT_HANDLE_BLOCKNO :=
    hcat.pos _ htl_mem
  have htl_getD : (SEGMENT_HANDLE_BLOCKNO :: ts).getD ts.length 0
      = ts.getLastD SEGMENT_HANDLE_BLOCKNO := getD_length_eq_getLastD ts _ 0
  by_cases hfits : fits (s.getPage (ts.getLastD SEGMENT_HANDLE_BLOCKNO)) h = true
  · -- the entry fits on the current tail page
    have hcr : segmentHandleCreate fits s h
        = (s.addItem (ts.getLastD SEGMENT_HANDLE_BLOCKNO) (.seg h), true) := by
      unfold segmentHandleCreate
      rw [hib, if_pos hfits]
    rw [hcr]
    refine ⟨ts, pe.set (pe.length - 1) (pe.getD (pe.length - 1) [] ++ [h]),
      ?_, ?_, hfree, le_of_eq (pages_length_addItem ..).symm,
      by rw [pages_length_addItem]; omega, ?_⟩
    · refine { chain := ?_, nodup := hcat.nodup, bounded := ?_, pos := hcat.pos
               insert_tail := ?_, len_eq := ?_, items := ?_
               meta_items := ?_, meta_special := ?_ }
      · exact chainFromEnd_of_special_eq (fun y => special_addItem s _ _ y) hcat.chain
      · intro x hx
        rw [pages_length_addItem]
        exact hcat.bounded x hx
      · rw [insertBlockno_addItem]
        exact hcat.insert_tail
      · rw [List.length_set]
        exact hcat.len_eq
      · intro i hilt
        rw [List.length_set] at hilt
        have hlast : pe.length - 1 = ts.length := by
          have := hcat.len_eq
          omega
        by_cases hieq : i = ts.length
        · subst hieq
          rw [htl_getD,
            getPage_addItem_self s _ (.seg h) htl_lt]
          have hitem := hcat.items ts.length (by omega)
          rw [htl_getD] at hitem
          simp only [hitem]
          have hsetD : (pe.set (pe.length - 1) (pe.getD (pe.length - 1) [] ++ [h])).getD
              ts.length [] = pe.getD ts.length [] ++ [h] := by
            rw [hlast, List.getD_eq_getElem?_getD, List.getElem?_set_self' ,
              List.getElem?_eq_getElem (by omega : ts.length < pe.length)]
            rfl
          rw [hsetD]
          simp
        · have hne : (SEGMENT_HANDLE_BLOCKNO :: ts).getD i 0
              ≠ ts.getLastD SEGMENT_HANDLE_BLOCKNO := by
            rw [← htl_getD]
            exact nodup_getD_ne hcat.nodup i ts.length (by simp; omega) (by simp) hieq
          rw [getPage_addItem_ne s _ _ _ hne]
          rw [List.getD_eq_getElem?_getD (pe.set ..),
            List.getElem?_set_ne (by omega : pe.length - 1 ≠ i),
            ← List.getD_eq_getElem?_getD]
          exact hcat.items i hilt
      · rw [getPage_addItem_ne s _ _ METADATA_BLOCKNO
          (by show (0 : Nat) ≠ _; omega)]
        exact hcat.meta_items
      · rw [getPage_addItem_ne s _ _ METADATA_BLOCKNO
          (by show (0 : Nat) ≠ _; omega)]
        exact hcat.meta_special
    · have hpe_ne : pe ≠ [] := by
        have hl := hcat.len_eq
        intro hnil
        rw [hnil] at hl
        simp at hl
      exact flatten_set_last pe h hpe_ne
    · intro x hx hxlen
      have hxtl : x ≠ ts.getLastD SEGMENT_HANDLE_BLOCKNO := by
        intro hcontra
        exact hx (hcontra ▸ htl_mem)
      exact getPage_addItem_ne s _ _ _ hxtl
  · -- the tail page is full: a new tail page is allocated and linked
    have hnb : s.newBuffer true
        = (s.pages.length, { s with pages := s.pages ++ [pageInitSpecial] }) := by
      rw [newBuffer_of_nil_free s true hfree]
      rfl
    have hfits_ne : ¬ fits (s.getPage s.insertBlockno) h = true := by
      rw [hib]; exact hfits
    have hiblt : s.insertBlockno < s.pages.length := by
      rw [hib]; exact htl_lt
    have hibpos : 0 < s.insertBlockno := by
      rw [hib]; exact htl_pos
    set sN : Storage := { s with pages := s.pages ++ [pageInitSpecial] } with hsN
    set s1 : Storage := sN.setNext s.insertBlockno s.pages.length with hs1
    set s2 : Storage := { s1 with insertBlockno := s.pages.length } with hs2
    have hcr0 : segmentHandleCreate fits s h
        = (if fits (s2.getPage s.pages.length) h then
            (s2.addItem s.pages.length (.seg h), true)
          else (s2, false)) := by
      unfold segmentHandleCreate
      rw [if_neg hfits_ne, hnb]
    have hs2get : ∀ x, s2.getPage x = s1.getPage x := fun _ => rfl
    have hcond : s2.getPage s.pages.length = pageInitSpecial := by
      rw [hs2get, hs1, getPage_setNext_ne _ _ _ _ (by omega), hsN,
        getPage_append_self]
    rw [hcond] at hcr0
    by_cases hfits2 : fits pageInitSpecial h = true
    · rw [if_pos hfits2] at hcr0
      rw [hcr0]
      simp only []
      set s' : Storage := s2.addItem s.pages.length (.seg h) with hs'
      have hlen2 : s2.pages.length = s.pages.length + 1 := by
        show s1.pages.length = s.pages.length + 1
        rw [hs1, pages_length_setNext, hsN]
        simp
      have hlen' : s'.pages.length = s.pages.length + 1 := by
        rw [hs', pages_length_addItem, hlen2]
      have hgx : ∀ x, x ≠ s.pages.length → x ≠ s.insertBlockno → x < s.pages.length →
          s'.getPage x = s.getPage x := by
        intro x hx1 hx2 hx3
        rw [hs', getPage_addItem_ne _ _ _ _ hx1, hs2get, hs1,
          getPage_setNext_ne _ _ _ _ hx2, hsN, getPage_append_lt s _ x hx3]
      have hgtl : s'.getPage s.insertBlockno
          = { s.getPage s.insertBlockno with special := some s.pages.length } := by
        rw [hs', getPage_addItem_ne _ _ _ _ (by omega), hs2get, hs1,
          getPage_setNext_self sN _ _ (by rw [hsN]; simp; omega), hsN,
          getPage_append_lt s _ _ hiblt]
      have hgnb : s'.getPage s.pages.length
          = { items := [Item.seg h], special := some 0 } := by
        rw [hs', getPage_addItem_self s2 _ _ (by omega), hcond]
        simp [pageInitSpecial]
      have hitems_pres : ∀ x ∈ SEGMENT_HANDLE_BLOCKNO :: ts,
          (s'.getPage x).items = (s.getPage x).items := by
        intro x hx
        have hxlt : x < s.pages.length := hcat.bounded x hx
        by_cases hxe : x = s.insertBlockno
        · subst hxe
          rw [hgtl]
        · rw [hgx x (by omega) hxe hxlt]
      have hfree' : s'.freeList = [] := by
        show s.freeList = []
        exact hfree
      have hmeta' : s'.getPage METADATA_BLOCKNO = s.getPage METADATA_BLOCKNO := by
        apply hgx METADATA_BLOCKNO
        · show (0 : Nat) ≠ s.pages.length
          omega
        · show (0 : Nat) ≠ s.insertBlockno
          omega
        · show (0 : Nat) < s.pages.length
          omega
      refine ⟨ts ++ [s.pages.length], pe ++ [[h]], ?_, by simp, hfree',
        by omega, by omega, ?_⟩
      · refine { chain := ?_, nodup := ?_, bounded := ?_, pos := ?_
                 insert_tail := ?_, len_eq := ?_, items := ?_
                 meta_items := ?_, meta_special := ?_ }
        · have hch : ChainFromEnd s' SEGMENT_HANDLE_BLOCKNO 0
              (ts ++ [s.pages.length]) := by
            apply chainFromEnd_extend ts s s' SEGMENT_HANDLE_BLOCKNO (catalogEnd ts)
              s.pages.length hcat.chain hcat.nodup
            · intro x hx hxne
              have hxib : x ≠ s.insertBlockno := by
                rw [hib]; exact hxne
              rw [hgx x (by have := hcat.bounded x hx; omega) hxib (hcat.bounded x hx)]
            · rw [← hib, hgtl]
            · rw [hgnb]
          have hend : catalogEnd (ts ++ [s.pages.length]) = 0 := by
            unfold catalogEnd
            rw [if_neg (by simp)]
          rw [hend]
          exact hch
        · show ((SEGMENT_HANDLE_BLOCKNO :: ts) ++ [s.pages.length]).Nodup
          apply List.nodup_append.mpr
          refine ⟨hcat.nodup, by simp, ?_⟩
          intro a ha hb
          have h1 : a < s.pages.length := hcat.bounded a ha
          have h2 : a = s.pages.length := by simpa using hb
          omega
        · intro x hx
          rw [hlen']
          rcases List.mem_cons.mp hx with hx1 | hx'
          · have : x < s.pages.length :=
              hcat.bounded x (by rw [hx1]; exact List.mem_cons_self _ _)
            omega
          · rcases List.mem_append.mp hx' with hx'' | hx''
            · have : x < s.pages.length :=
                hcat.bounded x (List.mem_cons_of_mem _ hx'')
              omega
            · have : x = s.pages.length := by simpa using hx''
              omega
        · intro x hx
          rcases List.mem_cons.mp hx with hx1 | hx'
          · rw [hx1]
            decide
          · rcases List.mem_append.mp hx' with hx'' | hx''
            · exact hcat.pos x (List.mem_cons_of_mem _ hx'')
            · have hxx : x = s.pages.length := by simpa using hx''
              rw [hxx]
              omega
        · show s.pages.length = (ts ++ [s.pages.length]).getLastD SEGMENT_HANDLE_BLOCKNO
          exact (getLastD_concat' ts _ _).symm
        · simp [hcat.len_eq]
        · intro i hilt
          simp only [List.length_append, List.length_cons, List.length_nil] at hilt
          by_cases hieq : i < pe.length
          · have hgetblk : (SEGMENT_HANDLE_BLOCKNO :: (ts ++ [s.pages.length])).getD i 0
                = (SEGMENT_HANDLE_BLOCKNO :: ts).getD i 0 := by
              show ((SEGMENT_HANDLE_BLOCKNO :: ts) ++ [s.pages.length]).getD i 0 = _
              apply getD_append_lt
              simp
              have := hcat.len_eq
              omega
            have hgetpe : (pe ++ [[h]]).getD i [] = pe.getD i [] :=
              getD_append_lt pe [[h]] [] i hieq
            rw [hgetblk, hgetpe,
              hitems_pres _ (getD_mem _ i 0 (by
                simp only [List.length_cons]
                have := hcat.len_eq
                omega)),
              hcat.items i hieq]
          · have hieq2 : i = pe.length := by omega
            subst hieq2
            have hgetblk : (SEGMENT_HANDLE_BLOCKNO :: (ts ++ [s.pages.length])).getD
                pe.length 0 = s.pages.length := by
              show ((SEGMENT_HANDLE_BLOCKNO :: ts) ++ [s.pages.length]).getD pe.length 0 = _
              have hl : (SEGMENT_HANDLE_BLOCKNO :: ts).length = pe.length := by
                simp [hcat.len_eq]
              rw [← hl]
              exact getD_append_length _ _ 0 _
            have hgetpe : (pe ++ [[h]]).getD pe.length [] = [h] :=
              getD_append_length pe [] [] [h]
            rw [hgetblk, hgetpe, hgnb]
            rfl
        · rw [hmeta']
          exact hcat.meta_items
        · rw [hmeta']
          exact hcat.meta_special
      · intro x hx hxlen
        have hxib : x ≠ s.insertBlockno := by
          rw [hib]
          intro hcontra
          exact hx (hcontra ▸ htl_mem)
        exact hgx x (by omega) hxib hxlen
    · rw [if_neg hfits2] at hcr0
      rw [hcr0] at hflag
      simp at hflag

theorem chainFromEnd_congr (ts : List Nat) :
    ∀ (s s' : Storage) (b e : Nat), ChainFromEnd s b e ts →
    (∀ x ∈ b :: ts, s'.getPage x = s.getPage x) → ChainFromEnd s' b e ts := by
  induction ts with
  | nil =>
    intro s s' b e hchain hpres
    show (s'.getPage b).special = some e
    rw [hpres b (by simp)]
    exact hchain
  | cons t ts' ih =>
    intro s s' b e hchain hpres
    obtain ⟨h1, h2⟩ := hchain
    exact ⟨by rw [hpres b (by simp)]; exact h1,
      ih s s' t e h2 (fun x hx => hpres x (List.mem_cons_of_mem b hx))⟩

/-- A well-formed catalog is insensitive to storage changes that keep every
    existing page's contents, the page count (non-decreasing), and the
    metadata insert pointer. -/
theorem catalogOK_congr (s s' : Storage) (ts : List Nat)
    (pe : List (List SegmentHandle)) (hcat : CatalogOK s ts pe)
    (hpres : ∀ x, x < s.pages.length → s'.getPage x = s.getPage x)
    (hlen : s.pages.length ≤ s'.pages.length)
    (hins : s'.insertBlockno = s.insertBlockno) : CatalogOK s' ts pe := by
  have h0lt : METADATA_BLOCKNO < s.pages.length :=
    Nat.lt_of_lt_of_le (by decide)
      (hcat.bounded SEGMENT_HANDLE_BLOCKNO (List.mem_cons_self _ _))
  refine { chain := ?_, nodup := hcat.nodup, bounded := ?_, pos := hcat.pos
           insert_tail := ?_, len_eq := hcat.len_eq, items := ?_
           meta_items := ?_, meta_special := ?_ }
  · exact chainFromEnd_congr ts s s' SEGMENT_HANDLE_BLOCKNO _ hcat.chain
      (fun x hx => hpres x (hcat.bounded x hx))
  · intro x hx
    exact Nat.lt_of_lt_of_le (hcat.bounded x hx) hlen
  · rw [hins]
    exact hcat.insert_tail
  · intro i hilt
    rw [hpres _ (hcat.bounded _ (getD_mem _ i 0 (by
      simp only [List.length_cons]
      have := hcat.len_eq
      omega)))]
    exact hcat.items i hilt
  · rw [hpres _ h0lt]
    exact hcat.meta_items
  · rw [hpres _ h0lt]
    exact hcat.meta_special

theorem range'_getD (st n i : Nat) (hi : i < n) : (List.range' st n).getD i 0 = st + i := by
  rw [List.getD_eq_getElem?_getD,
    List.getElem?_eq_getElem (by simpa using hi)]
  rw [List.getElem_range'_1]
  rfl

/-- The page-allocation loop of the segment writer, starting from a state with
    no free pages: the chunks land on consecutively extended fresh pages, one
    chunk per page as its only item, and nothing else changes. -/
theorem ioWriterAllocChunks_spec :
    ∀ (cs : List (List Byte)) (s : Storage), s.freeList = [] →
    (ioWriterAllocChunks s cs).2 = List.range' s.pages.length cs.length
    ∧ (ioWriterAllocChunks s cs).1.pages.length = s.pages.length + cs.length
    ∧ (ioWriterAllocChunks s cs).1.freeList = []
    ∧ (ioWriterAllocChunks s cs).1.insertBlockno = s.insertBlockno
    ∧ (∀ x, x < s.pages.length → (ioWriterAllocChunks s cs).1.getPage x = s.getPage x)
    ∧ (∀ i, i < cs.length → (ioWriterAllocChunks s cs).1.getPage (s.pages.length + i)
        = { items := [Item.bytes (cs.getD i [])], special := none }) := by
  intro cs
  induction cs with
  | nil =>
    intro s hfree
    refine ⟨rfl, by simp [ioWriterAllocChunks], hfree, rfl, fun _ _ => rfl, ?_⟩
    intro i hi
    simp at hi
  | cons c cs ih =>
    intro s hfree
    have hnb : s.newBuffer false
        = (s.pages.length, { s with pages := s.pages ++ [pageInitPlain] }) := by
      rw [newBuffer_of_nil_free s false hfree]
      rfl
    set sN : Storage := { s with pages := s.pages ++ [pageInitPlain] } with hsN
    set sA : Storage := sN.addItem s.pages.length (.bytes c) with hsA
    have hrw : ioWriterAllocChunks s (c :: cs)
        = ((ioWriterAllocChunks sA cs).1, s.pages.length :: (ioWriterAllocChunks sA cs).2) := by
      show ((ioWriterAllocChunks (((s.newBuffer false).2).addItem (s.newBuffer false).1
            (.bytes c)) cs).1,
          (s.newBuffer false).1
            :: (ioWriterAllocChunks (((s.newBuffer false).2).addItem (s.newBuffer false).1
                (.bytes c)) cs).2)
        = _
      rw [hnb]
    have hsAlen : sA.pages.length = s.pages.length + 1 := by
      rw [hsA, pages_length_addItem, hsN]
      simp
    have hsAfree : sA.freeList = [] := by
      show sN.freeList = []
      rw [hsN]
      exact hfree
    have hsAself : sA.getPage s.pages.length
        = { items := [Item.bytes c], special := none } := by
      rw [hsA, getPage_addItem_self sN _ _ (by rw [hsN]; simp), hsN,
        getPage_append_self]
      simp [pageInitPlain]
    have hsAold : ∀ x, x < s.pages.length → sA.getPage x = s.getPage x := by
      intro x hx
      rw [hsA, getPage_addItem_ne _ _ _ _ (by omega), hsN, getPage_append_lt s _ x hx]
    obtain ⟨hblocks, hlen, hfree2, hins, hold, hnew⟩ := ih sA hsAfree
    rw [hrw]
    refine ⟨?_, ?_, hfree2, ?_, ?_, ?_⟩
    · rw [hblocks, hsAlen, List.length_cons, List.range'_succ]
    · rw [hlen, hsAlen]
      simp only [List.length_cons]
      omega
    · rw [hins]
      show s.insertBlockno = s.insertBlockno
      rfl
    · intro x hx
      rw [hold x (by omega), hsAold x hx]
    · intro i hi
      cases i with
      | zero =>
        rw [Nat.add_zero, hold _ (by omega), hsAself]
        rfl
      | succ j =>
        have := hnew j (by simp at hi; omega)
        rw [hsAlen] at this
        rw [show s.pages.length + (j + 1) = s.pages.length + 1 + j by omega, this]
        rfl

/-- The full effect of `IoWriter::terminate_ref` from a well-formed-catalog
    state with no free pages, when the catalog append succeeds: the buffered
    payload lands chunk-per-fresh-page, the handle is appended to the catalog,
    and the new segment is laid out for the readers. -/
theorem ioWriterTerminate_spec (fits : Page → SegmentHandle → Bool) (s : Storage)
    (w : IoWriter) (ts : List Nat) (pe : List (List SegmentHandle))
    (hcat : CatalogOK s ts pe) (hfree : s.freeList = [])
    (hflag : (ioWriterTerminate fits s w).2 = true) :
    ∃ ts' pe',
      CatalogOK (ioWriterTerminate fits s w).1 ts' pe'
      ∧ pe'.flatten = pe.flatten ++ [terminateHandle s w]
      ∧ (ioWriterTerminate fits s w).1.freeList = []
      ∧ SegmentLayout (ioWriterTerminate fits s w).1 (terminateHandle s w) w.data
      ∧ s.pages.length ≤ (ioWriterTerminate fits s w).1.pages.length
      ∧ (ioWriterTerminate fits s w).1.pages.length
          ≤ s.pages.length + (chunksOf MAX_HEAP_TUPLE_SIZE w.data).length + 1
      ∧ (∀ i, i < (chunksOf MAX_HEAP_TUPLE_SIZE w.data).length →
          (ioWriterTerminate fits s w).1.getPage (s.pages.length + i)
            = { items := [Item.bytes ((chunksOf MAX_HEAP_TUPLE_SIZE w.data).getD i [])]
                special := none }) := by
  obtain ⟨hblocks, hlen1, hfree1, hins1, hold1, hnew1⟩ :=
    ioWriterAllocChunks_spec (chunksOf MAX_HEAP_TUPLE_SIZE w.data) s hfree
  set cs := chunksOf MAX_HEAP_TUPLE_SIZE w.data with hcs
  set s1 := (ioWriterAllocChunks s cs).1 with hs1
  have hcat1 : CatalogOK s1 ts pe :=
    catalogOK_congr s s1 ts pe hcat hold1 (by omega) hins1
  have hterm : ioWriterTerminate fits s w
      = segmentHandleCreate fits s1 (terminateHandle s w) := by
    unfold ioWriterTerminate terminateHandle
    rw [← hcs, ← hs1, hblocks]
  rw [hterm] at hflag ⊢
  obtain ⟨ts2, pe2, hcat2, hflat2, hfree2, hlenlo2, hlenhi2, hframe2⟩ :=
    segmentHandleCreate_spec fits s1 (terminateHandle s w) ts pe hcat1 hfree1 hflag
  have hchain_lt : ∀ x ∈ SEGMENT_HANDLE_BLOCKNO :: ts, x < s.pages.length :=
    hcat.bounded
  have hdata_pages : ∀ i, i < cs.length →
      (segmentHandleCreate fits s1 (terminateHandle s w)).1.getPage (s.pages.length + i)
        = { items := [Item.bytes (cs.getD i [])], special := none } := by
    intro i hi
    rw [hframe2 (s.pages.length + i)
        (by
          intro hmem
          have := hchain_lt _ hmem
          omega)
        (by omega),
      hnew1 i hi]
  refine ⟨ts2, pe2, hcat2, hflat2, hfree2, ?_, by omega, by omega, ?_⟩
  · have hblocksH : (terminateHandle s w).blocks = List.range' s.pages.length cs.length := by
      rw [hcs]
      rfl
    refine { total := rfl, blocks_len := ?_, layout := ?_ }
    · rw [hblocksH, List.length_range', hcs]
    · intro i hi
      rw [hblocksH] at hi ⊢
      rw [List.length_range'] at hi
      rw [range'_getD s.pages.length _ i hi]
      unfold Storage.headItem
      rw [hdata_pages i hi]
      rfl
  · intro i hi
    exact hdata_pages i hi

/-- Folding `SegmentHandle::create` over a list of handles from a well-formed
    catalog state: on overall success every handle is appended to the catalog,
    in order, and the catalog stays well-formed. -/
theorem createAll_spec (fits : Page → SegmentHandle → Bool)
    (hs : List SegmentHandle) :
    ∀ (s : Storage) (ts : List Nat) (pe : List (List SegmentHandle))
      (s' : Storage), CatalogOK s ts pe → s.freeList = [] →
    createAll fits s hs = some s' →
    ∃ ts' pe', CatalogOK s' ts' pe'
      ∧ pe'.flatten = pe.flatten ++ hs
      ∧ s'.freeList = []
      ∧ s'.pages.length ≤ s.pages.length + hs.length := by
  induction hs with
  | nil =>
    intro s ts pe s' hcat hfree hrun
    simp only [createAll, Option.some.injEq] at hrun
    subst hrun
    exact ⟨ts, pe, hcat, by simp, hfree, by omega⟩
  | cons h hs ih =>
    intro s ts pe s' hcat hfree hrun
    unfold createAll at hrun
    by_cases hflag : (segmentHandleCreate fits s h).2 = true
    · rw [if_pos hflag] at hrun
      obtain ⟨ts1, pe1, hcat1, hflat1, hfree1, hlo1, hhi1, _⟩ :=
        segmentHandleCreate_spec fits s h ts pe hcat hfree hflag
      obtain ⟨ts2, pe2, hcat2, hflat2, hfree2, hlen2⟩ :=
        ih _ ts1 pe1 s' hcat1 hfree1 hrun
      refine ⟨ts2, pe2, hcat2, ?_, hfree2, ?_⟩
      · rw [hflat2, hflat1]
        simp
      · simp only [List.length_cons]
        omega
    · rw [if_neg hflag] at hrun
      exact absurd hrun (by simp)

/-- The freshly built index (blocks 0–4 initialized, catalog head empty,
    insert pointer at the catalog head) is a well-formed empty catalog. -/
theorem catalogOK_initial : CatalogOK initialStorage [] [[]] := by
  refine { chain := rfl, nodup := by simp, bounded := ?_, pos := ?_
           insert_tail := rfl, len_eq := rfl, items := ?_
           meta_items := rfl, meta_special := rfl }
  · intro x hx
    simp only [List.mem_singleton] at hx
    subst hx
    decide
  · intro x hx
    simp only [List.mem_singleton] at hx
    subst hx
    decide
  · intro i hi
    simp only [List.length_cons, List.length_nil] at hi
    interval_cases i
    rfl

/-- `find?` on a list of handles with pairwise-distinct paths locates each
    member by its path. -/
theorem find_of_distinct_paths (l : List SegmentHandle) (h : SegmentHandle)
    (hnd : (l.map SegmentHandle.path).Nodup) (hmem : h ∈ l) :
    l.find? (fun h2 => decide (h2.path = h.path)) = some h := by
  induction l with
  | nil => exact absurd hmem (by simp)
  | cons a l ih =>
    rcases List.mem_cons.mp hmem with hmem1 | hmem'
    · subst hmem1
      rw [List.find?_cons_of_pos _ (by simp)]
    · have hane : a.path ≠ h.path := by
        intro hcontra
        have : h.path ∈ l.map SegmentHandle.path :=
          List.mem_map.mpr ⟨h, hmem', rfl⟩
        rw [← hcontra] at this
        exact (List.nodup_cons.mp hnd).1 this
      rw [List.find?_cons_of_neg _ (by simpa using hane)]
      exact ih (List.nodup_cons.mp hnd).2 hmem'

/-- `find?` by a path that no handle of the list carries returns `none`. -/
theorem find_of_absent (l : List SegmentHandle) (p : String)
    (habs : ∀ h ∈ l, h.path ≠ p) :
    l.find? (fun h2 => decide (h2.path = p)) = none :=
  List.find?_eq_none.mpr (fun h hmem => by simpa using habs h hmem)

theorem ioWriter_foldl_data (bufs : List (List Byte)) :
    ∀ w : IoWriter, (bufs.foldl IoWriter.write w).data = w.data ++ bufs.flatten := by
  induction bufs with
  | nil =>
    intro w
    simp
  | cons b bs ih =>
    intro w
    rw [List.foldl_cons, ih]
    simp [IoWriter.write]

theorem ioWriter_foldl_path (bufs : List (List Byte)) :
    ∀ w : IoWriter, (bufs.foldl IoWriter.write w).path = w.path := by
  induction bufs with
  | nil =>
    intro w
    rfl
  | cons b bs ih =>
    intro w
    rw [List.foldl_cons, ih]
    rfl

/-- `SegmentHandleReader::read_bytes` only looks at the clamped range end:
    `range.end.min(total_bytes)`. -/
theorem segmentHandleReadBytes_clamp (s : Storage) (h : SegmentHandle)
    (start e0 : Nat) :
    segmentHandleReadBytes s h start e0
      = segmentHandleReadBytes s h start (min e0 h.total_bytes) := by
  have hmm : min (min e0 h.total_bytes) h.total_bytes = min e0 h.total_bytes := by
    rw [min_assoc, min_self]
  unfold segmentHandleReadBytes
  rw [hmm]

/-! ## The claims -/

/-- C7 counterexample: `ChannelDirectory::atomic_read` receiving the
    mismatched `AtomicWriteAck` variant does not panic: it returns a wrapped
    I/O error to the caller. -/
theorem claim_C7_counterexample :
    channelAtomicReadOutcome ChannelResponse.AtomicWriteAck
        = .errReturn "atomic_read unexpected response"
    ∧ (channelAtomicReadOutcome ChannelResponse.AtomicWriteAck).isPanic = false := by
  constructor <;> rfl

/-- C7 (amended): a mismatched response variant is fatal (a panic) only for
    the reader/writer bridge ends (`ChannelReader::new`,
    `ChannelReader::read_bytes`, `ChannelWriter::terminate_ref`); the
    `ChannelDirectory` operations (`atomic_read`, `atomic_write`, `delete`,
    `acquire_lock`) instead return a typed error to the caller and do not
    panic. -/
theorem claim_C7_amended_mismatch_outcomes (r : ChannelResponse) :
    (isBytesResp r = false → (channelAtomicReadOutcome r).isErrReturn = true
        ∧ (channelAtomicReadOutcome r).isPanic = false)
    ∧ (r ≠ .AtomicWriteAck → (channelAtomicWriteOutcome r).isErrReturn = true
        ∧ (channelAtomicWriteOutcome r).isPanic = false)
    ∧ (r ≠ .SegmentDeleteAck → (channelDeleteOutcome r).isErrReturn = true
        ∧ (channelDeleteOutcome r).isPanic = false)
    ∧ ((∀ b, r ≠ .AcquiredLock b) → (channelAcquireLockOutcome r).isErrReturn = true
        ∧ (channelAcquireLockOutcome r).isPanic = false)
    ∧ (isSegmentHandleResp r = false → (channelReaderNewOutcome r).isPanic = true)
    ∧ (isBytesResp r = false → (channelReaderReadOutcome r).isPanic = true)
    ∧ (r ≠ .SegmentWriteAck → (channelWriterTerminateOutcome r).isPanic = true) := by
  refine ⟨?_, ?_, ?_, ?_, ?_, ?_, ?_⟩ <;> intro h <;> cases r <;>
    first
      | exact absurd rfl (h _)
      | simp_all [isBytesResp, isSegmentHandleResp, channelAtomicReadOutcome,
          channelAtomicWriteOutcome, channelDeleteOutcome,
          channelAcquireLockOutcome, channelReaderNewOutcome,
          channelReaderReadOutcome, channelWriterTerminateOutcome,
          BridgeOutcome.isPanic, BridgeOutcome.isErrReturn]

/-- C8: the foreground handler answers a `ShouldDeleteCtids(ids)` request,
    when running with an eligibility predicate, by sending back
    `ShouldDeleteCtids` holding exactly the elements of `ids` satisfying the
    predicate, in their original relative order (a sublist). -/
theorem claim_C8_should_delete_ctids_filter (p : Nat → Bool) (st : HandlerState)
    (ctids : List Nat) (reqs : List ChannelRequest) :
    receiveBlocking (some p) st (ChannelRequest.ShouldDeleteCtids ctids :: reqs)
      = receiveBlocking (some p)
          { st with responses := st.responses
              ++ [ChannelResponse.ShouldDeleteCtids (ctids.filter p)] } reqs
    ∧ List.Sublist (ctids.filter p) ctids
    ∧ (∀ x, x ∈ ctids.filter p ↔ x ∈ ctids ∧ p x = true) := by
  refine ⟨rfl, List.filter_sublist ctids, fun x => ?_⟩
  simp [List.mem_filter]

/-- C2: for a segment whose catalog-recorded total length is `L` (the length
    of its content `C`), `read_bytes(start..end)` clamps `end` to `L`; if
    after clamping `start >= end` the call errors (not a silent empty
    buffer); otherwise it returns exactly the `end - start` bytes of the
    sub-slice `[start, clamped end)` of the segment content. -/
theorem claim_C2_partial_range_read (s : Storage) (h : SegmentHandle)
    (C : List Byte) (hl : SegmentLayout s h C) (start e0 : Nat) :
    (min e0 h.total_bytes ≤ start →
      segmentHandleReadBytes s h start e0 = .error "Invalid range")
    ∧ (start < min e0 h.total_bytes →
      segmentHandleReadBytes s h start e0
        = .ok ((C.drop start).take (min e0 C.length - start))
      ∧ ((C.drop start).take (min e0 C.length - start)).length
          = min e0 C.length - start) := by
  have htot : h.total_bytes = C.length := hl.total
  constructor
  · intro hge
    unfold segmentHandleReadBytes
    rw [if_pos (by omega)]
  · intro hlt
    rw [htot] at hlt
    have hok : segmentHandleReadBytes s h start e0
        = .ok ((C.drop start).take (min e0 C.length - start)) := by
      rw [segmentHandleReadBytes_clamp s h start e0, htot]
      exact segmentHandleReadBytes_ok s h C hl start (min e0 C.length) hlt
        (min_le_right e0 C.length)
    refine ⟨hok, ?_⟩
    simp only [List.length_take, List.length_drop]
    omega

/-- C2 witness: reading `1..10` of a five-byte segment clamps to 5 and yields
    the four-byte sub-slice. -/
theorem claim_C2_witness :
    (min 10 C2h.total_bytes ≤ 1 →
      segmentHandleReadBytes C2s C2h 1 10 = .error "Invalid range")
    ∧ (1 < min 10 C2h.total_bytes →
      segmentHandleReadBytes C2s C2h 1 10
        = .ok ((([10, 20, 30, 40, 50] : List Byte).drop 1).take
            (min 10 ([10, 20, 30, 40, 50] : List Byte).length - 1))
      ∧ ((([10, 20, 30, 40, 50] : List Byte).drop 1).take
            (min 10 ([10, 20, 30, 40, 50] : List Byte).length - 1)).length
          = min 10 ([10, 20, 30, 40, 50] : List Byte).length - 1) :=
  claim_C2_partial_range_read C2s C2h [10, 20, 30, 40, 50]
    ⟨rfl, by decide, by decide⟩ 1 10

/-- C3 (amended): after creating any sequence of segment handles with
    pairwise-distinct paths (under any page-capacity behaviour `fits`, so in
    particular when the entries overflow one catalog page onto a linked
    continuation page), `SegmentHandle::open` returns the recorded handle for
    every created path, including the first one written, and a never-created
    path is never reported found. The clean not-found result (`Ok(None)`
    after exhausting the chain) is returned for never-created paths exactly
    while the catalog has not overflowed: once it has, the new tail page's
    trailer keeps its `PageInit`-zeroed value (block 0), so the miss walks
    onto the metadata block and reads a special area that does not exist —
    no defined result. -/
theorem claim_C3_catalog_roundtrip (fits : Page → SegmentHandle → Bool)
    (hs : List SegmentHandle) (s' : Storage)
    (hnd : (hs.map SegmentHandle.path).Nodup)
    (hrun : createAll fits initialStorage hs = some s')
    (hsize : 5 + hs.length ≤ InvalidBlockNumber) :
    (∀ h ∈ hs, segmentHandleOpen s' h.path = some (.ok (some h)))
    ∧ (∀ p, (∀ h ∈ hs, h.path ≠ p) →
        ∀ hh, segmentHandleOpen s' p ≠ some (.ok (some hh)))
    ∧ ∃ ts' pe', CatalogOK s' ts' pe' ∧ pe'.flatten = hs
        ∧ (ts' = [] → ∀ p, (∀ h ∈ hs, h.path ≠ p) →
            segmentHandleOpen s' p = some (.ok none))
        ∧ (ts' ≠ [] → ∀ p, (∀ h ∈ hs, h.path ≠ p) →
            segmentHandleOpen s' p = none) := by
  obtain ⟨ts', pe', hcat', hflat', hfree', hlen'⟩ :=
    createAll_spec fits hs initialStorage [] [[]] s' catalogOK_initial rfl hrun
  have hflat2 : pe'.flatten = hs := by simpa using hflat'
  have h5 : initialStorage.pages.length = 5 := by simp [initialStorage]
  have hInv' : s'.pages.length ≤ InvalidBlockNumber := by omega
  refine ⟨?_, ?_, ts', pe', hcat', hflat2, ?_, ?_⟩
  · intro h hmem
    exact segmentHandleOpen_found s' ts' (catalogEnd ts') pe' h.path h
      hcat'.chain hcat'.nodup hcat'.bounded hInv' hcat'.len_eq hcat'.items
      (by rw [hflat2]; exact find_of_distinct_paths hs h hnd hmem)
  · intro p habs hh
    exact segmentHandleOpen_absent_not_found s' ts' pe' p hcat' hInv'
      (by rw [hflat2]; exact find_of_absent hs p habs) hh
  · intro hts p habs
    rw [segmentHandleOpen_eq_sentinel s' pe' p (hts ▸ hcat') hInv', hflat2,
      find_of_absent hs p habs]
  · intro hts p habs
    exact segmentHandleOpen_absent_overflow s' ts' pe' p hcat' hInv' hts
      (by rw [hflat2]; exact find_of_absent hs p habs)

/-- C3 witness: two creates under a one-entry-per-page capacity overflow the
    catalog head onto a linked page, and both entries (the first included)
    are found, while an absent path is never reported found. -/
theorem claim_C3_witness :
    (∀ h ∈ C3hs, segmentHandleOpen C3res h.path = some (.ok (some h)))
    ∧ (∀ p, (∀ h ∈ C3hs, h.path ≠ p) →
        ∀ hh, segmentHandleOpen C3res p ≠ some (.ok (some hh)))
    ∧ ∃ ts' pe', CatalogOK C3res ts' pe' ∧ pe'.flatten = C3hs
        ∧ (ts' = [] → ∀ p, (∀ h ∈ C3hs, h.path ≠ p) →
            segmentHandleOpen C3res p = some (.ok none))
        ∧ (ts' ≠ [] → ∀ p, (∀ h ∈ C3hs, h.path ≠ p) →
            segmentHandleOpen C3res p = none) :=
  claim_C3_catalog_roundtrip C3fits C3hs C3res (by decide) (by decide) (by decide)

/-- C3 counterexample (to the original claim): after the two creates overflow
    the catalog head, `open` of a never-created path does not return the
    not-found result after exhausting the chain — the walk's trailer read
    past the `PageInit`-zeroed tail is undefined. -/
theorem claim_C3_counterexample :
    createAll C3fits initialStorage C3hs = some C3res
    ∧ segmentHandleOpen C3res "absent" = none := by
  constructor <;> decide

/-- C9 (amended): `AtomicDirectory::write_bytes` never resets a page's
    next-block trailer to the end-of-chain sentinel — a trailer holding any
    other value survives every completing write, so the slot's chain only
    grows — and after overwriting an existing chain with a value of `j`
    chunks (`j` at most the chain length) the chain-walking read returns the
    new value followed by the stale head items of the remaining blocks. The
    walk does not, however, stop there cleanly: no slot chain is ever
    sentinel-terminated (the last-linked page keeps its `PageInit`-zeroed
    trailer, block 0), so the read continues onto the metadata block and
    ends on the undefined read of a special area that does not exist
    (terminated-flag `false`). -/
theorem claim_C9_overwrite_keeps_chain (s : Storage) (b : Nat) (ts : List Nat)
    (data : List Byte) (hdata : data ≠ [])
    (hchain : ChainFromEnd s b 0 ts) (hnodup : (b :: ts).Nodup)
    (hbound : ∀ x ∈ b :: ts, x < s.pages.length)
    (hInv : s.pages.length ≤ InvalidBlockNumber)
    (hlen : (chunksOf MAX_HEAP_TUPLE_SIZE data).length ≤ ts.length + 1)
    (hzero : 0 ∉ b :: ts)
    (hmeta_it : (s.getPage 0).items = [])
    (hmeta_sp : (s.getPage 0).special = none) :
    (∀ (s2 : Storage) (data2 : List Byte) (b2 x n : Nat) (s2' : Storage),
      atomicWriteBytes s2 data2 b2 = some s2' →
      (s2.getPage x).special = some n → n ≠ InvalidBlockNumber →
      (s2'.getPage x).special = some n)
    ∧ ∃ s', atomicWriteBytes s data b = some s'
        ∧ atomicReadBytes s' b
            = (data ++ (((b :: ts).map s.headItem).drop
                (chunksOf MAX_HEAP_TUPLE_SIZE data).length).flatten, false) :=
  ⟨fun s2 data2 b2 x n s2' hw hx hn =>
      atomicWriteBytes_special_mono s2 data2 b2 x n s2' hw hx hn,
   atomicRead_after_write s b ts data hdata hchain hnodup hbound hInv hlen
     hzero hmeta_it hmeta_sp⟩

/-- C9 witness: overwriting the two-block chain with the one-chunk value
    `[9]` keeps block 6 linked, and the read returns `[9]` followed by the
    stale `[3]`, the walk ending on the undefined trailer read past the
    chain. -/
theorem claim_C9_witness :
    (∀ (s2 : Storage) (data2 : List Byte) (b2 x n : Nat) (s2' : Storage),
      atomicWriteBytes s2 data2 b2 = some s2' →
      (s2.getPage x).special = some n → n ≠ InvalidBlockNumber →
      (s2'.getPage x).special = some n)
    ∧ ∃ s', atomicWriteBytes C9s [9] 3 = some s'
        ∧ atomicReadBytes s' 3
            = ([9] ++ ((([3, 6].map C9s.headItem)).drop
                (chunksOf MAX_HEAP_TUPLE_SIZE [9]).length).flatten, false) :=
  claim_C9_overwrite_keeps_chain C9s 3 [6] [9] (by decide) ⟨rfl, rfl⟩
    (by decide) (by decide) (by decide) (by decide) (by decide) rfl rfl

/-- C9 counterexample (to the original claim): overwriting the two-block
    chain at block 3 with the one-chunk value `[9]` leaves block 6 linked
    with its stale item, but the chain-walking read does not terminate after
    the stale bytes: it returns `([9, 3], false)`, the `false` flag marking
    that the walk ran off the chain's `PageInit`-zeroed end trailer onto the
    metadata block and an undefined special-area read, instead of stopping
    at a sentinel. -/
theorem claim_C9_counterexample :
    (atomicWriteBytes C9s [9] 3).isSome = true
    ∧ atomicReadBytes ((atomicWriteBytes C9s [9] 3).getD C9s) 3
        = ([9, 3], false) := by
  constructor <;> decide

/-- C4: a segment writer buffers every write (the buffered payload is the
    concatenation of the written buffers) and registers nothing before
    termination (no catalog lookup ever reports a handle for the path, and
    the handler's `SegmentWrite` arm leaves storage untouched); on
    termination it splits the payload into `MAX_HEAP_TUPLE_SIZE` chunks,
    stores each chunk as the single item of one freshly allocated page, and
    appends exactly one catalog entry whose block list is the allocation
    order and whose total byte length is the number of bytes buffered; a
    reader's `len()` on that handle reports that total. -/
theorem claim_C4_writer_buffers_then_registers (fits : Page → SegmentHandle → Bool)
    (s : Storage) (p : String) (bufs : List (List Byte)) (w : IoWriter)
    (ts : List Nat) (pe : List (List SegmentHandle))
    (hw : w = bufs.foldl IoWriter.write (IoWriter.new p))
    (hcat : CatalogOK s ts pe) (hfree : s.freeList = [])
    (hInv : s.pages.length ≤ InvalidBlockNumber)
    (habsent : ∀ h2 ∈ pe.flatten, h2.path ≠ p)
    (hflag : (ioWriterTerminate fits s w).2 = true) :
    w.data = bufs.flatten
    ∧ (∀ hh, segmentHandleOpen s p ≠ some (.ok (some hh)))
    ∧ (∀ (st : HandlerState) (sd : Option (Nat → Bool)) (d : List Byte),
        ∃ st', handleOne sd st (.SegmentWrite p d) = some (.ok st')
          ∧ st'.storage = st.storage)
    ∧ ∃ ts' pe', CatalogOK (ioWriterTerminate fits s w).1 ts' pe'
        ∧ pe'.flatten = pe.flatten
            ++ [{ path := p
                  blocks := List.range' s.pages.length
                    (chunksOf MAX_HEAP_TUPLE_SIZE w.data).length
                  total_bytes := w.data.length }]
        ∧ (∀ i, i < (chunksOf MAX_HEAP_TUPLE_SIZE w.data).length →
            (ioWriterTerminate fits s w).1.getPage (s.pages.length + i)
              = { items := [Item.bytes ((chunksOf MAX_HEAP_TUPLE_SIZE w.data).getD i [])]
                  special := none })
        ∧ segmentReaderLen (terminateHandle s w) = w.data.length := by
  have hdata : w.data = bufs.flatten := by
    rw [hw, ioWriter_foldl_data]
    simp [IoWriter.new]
  have hpath : w.path = p := by
    rw [hw, ioWriter_foldl_path]
    rfl
  have hterm_handle : terminateHandle s w
      = { path := p
          blocks := List.range' s.pages.length
            (chunksOf MAX_HEAP_TUPLE_SIZE w.data).length
          total_bytes := w.data.length } := by
    unfold terminateHandle
    rw [hpath]
  obtain ⟨ts', pe', hcat', hflat', hfree', hlay', hlo', hhi', hpages'⟩ :=
    ioWriterTerminate_spec fits s w ts pe hcat hfree hflag
  refine ⟨hdata, ?_, ?_, ts', pe', hcat', ?_, hpages', rfl⟩
  · intro hh
    exact segmentHandleOpen_absent_not_found s ts pe p hcat hInv
      (find_of_absent _ _ habsent) hh
  · intro st sd d
    exact ⟨_, rfl, rfl⟩
  · rw [hflat', hterm_handle]

/-- C4 witness: two buffered writes, then termination on the freshly built
    index, register one three-byte one-block entry. -/
theorem claim_C4_witness :
    C4w.data = C4bufs.flatten
    ∧ (∀ hh, segmentHandleOpen initialStorage "w4" ≠ some (.ok (some hh)))
    ∧ (∀ (st : HandlerState) (sd : Option (Nat → Bool)) (d : List Byte),
        ∃ st', handleOne sd st (.SegmentWrite "w4" d) = some (.ok st')
          ∧ st'.storage = st.storage)
    ∧ ∃ ts' pe',
        CatalogOK (ioWriterTerminate (fun _ _ => true) initialStorage C4w).1 ts' pe'
        ∧ pe'.flatten = ([[]] : List (List SegmentHandle)).flatten
            ++ [{ path := "w4"
                  blocks := List.range' initialStorage.pages.length
                    (chunksOf MAX_HEAP_TUPLE_SIZE C4w.data).length
                  total_bytes := C4w.data.length }]
        ∧ (∀ i, i < (chunksOf MAX_HEAP_TUPLE_SIZE C4w.data).length →
            (ioWriterTerminate (fun _ _ => true) initialStorage C4w).1.getPage
                (initialStorage.pages.length + i)
              = { items := [Item.bytes ((chunksOf MAX_HEAP_TUPLE_SIZE C4w.data).getD i [])]
                  special := none })
        ∧ segmentReaderLen (terminateHandle initialStorage C4w) = C4w.data.length :=
  claim_C4_writer_buffers_then_registers (fun _ _ => true) initialStorage "w4"
    C4bufs C4w [] [[]] (by decide) catalogOK_initial rfl (by decide) (by decide)
    (by decide)

end PgSearch
